import Mathlib

/-!
# Event queue of the analytical network backend

A shallow embedding of `EventQueue` (EventQueue.hh, EventQueue.cc), the
time-ordered queue of pending callbacks of the discrete-event simulator, and
the properties of its operations.

Modelling decisions.

* A time stamp (`timespec_t`) is a value of a linearly ordered type `T`; the
  resolution tag `time_res` is always `NS` and is not represented.  Concrete
  scenarios use `T = Nat`.
* A callback is a function pointer `F` together with an argument pointer `A`.
  What a callback does when it runs is given by a `Handler`: it may change the
  host state `W`, and it may call `add_event` on the queue that is firing it.
* `assert` is taken to be enabled.  A failed assertion and the access to the
  front of an empty list end the run; both are results of type `Fault`.
-/

deriving instance DecidableEq for Except

namespace AnalyticalBackend

/-! ## Data model -/

/-- A scheduled callback: the function pointer and the argument handed back to it. -/
structure Event (F A : Type) where
  fun_ptr : F
  fun_arg : A
deriving DecidableEq

/-- Modelled from the spec: the class EventQueueEntry (EventQueueEntry.hh is not
part of the sources at hand).  A time bucket holds one time stamp, fixed at
creation, and the callbacks scheduled for it in insertion order. -/
structure EventQueueEntry (T F A : Type) where
  time_stamp : T
  events : List (Event F A)
deriving DecidableEq

/-- The event queue: the current time and the list of time buckets. -/
structure EventQueue (T F A : Type) where
  current_time : T
  event_queue : List (EventQueueEntry T F A)
deriving DecidableEq

/-- The two ways a call can end the run instead of returning. -/
inductive Fault (T F A : Type) where
  /-- The assertion of `add_event` failed; `state` is the queue at that moment. -/
  | assertion_failed (state : EventQueue T F A)
  /-- The front of an empty bucket list was accessed: undefined behaviour. -/
  | undefined_front
deriving DecidableEq

/-- One run of a callback, as seen from outside: which callback ran, with which
argument, and what `get_current_time` returned while it ran. -/
structure Invocation (T F A : Type) where
  fun_ptr : F
  fun_arg : A
  observed_time : T
deriving DecidableEq

/-- The behaviour of the callbacks.  A callback sees the host state and the
queue, updates the host state, and issues a list of `add_event` calls
(time stamp, function pointer, argument) on the queue, in order. -/
abbrev Handler (W T F A : Type) :=
  F → A → W → EventQueue T F A → W × List (T × F × A)

section Model

variable {W T F A : Type} [LinearOrder T]

set_option linter.unusedSectionVars false

/-! ## EventQueueEntry -/

/-- Modelled from the spec: `EventQueueEntry(time_stamp)`, a bucket with no
callback yet. -/
def EventQueueEntry.create (time_stamp : T) : EventQueueEntry T F A :=
  { time_stamp := time_stamp, events := [] }

/-- Modelled from the spec: `EventQueueEntry::get_time_stamp`, the read-only
accessor of the bucket's time stamp. -/
def EventQueueEntry.get_time_stamp (e : EventQueueEntry T F A) : T :=
  e.time_stamp

/-- Modelled from the spec: `EventQueueEntry::add_event`, which adds one
callback and its argument at the end of the bucket's sequence. -/
def EventQueueEntry.add_event (e : EventQueueEntry T F A) (fun_ptr : F) (fun_arg : A) :
    EventQueueEntry T F A :=
  { e with events := e.events ++ [{ fun_ptr := fun_ptr, fun_arg := fun_arg }] }

/-- Modelled from the spec: `EventQueueEntry::compare_time_stamp`, the three-way
comparison of two time stamps: negative when the first is smaller, zero when
they are equal, positive when the first is larger. -/
def EventQueueEntry.compare_time_stamp (t1 t2 : T) : Int :=
  if t1 < t2 then -1 else if t2 < t1 then 1 else 0

/-! ## EventQueue -/

/-- The constructor `EventQueue()`: time zero and no bucket. -/
def EventQueue.create [Zero T] : EventQueue T F A :=
  { current_time := 0, event_queue := [] }

/-- `EventQueue::get_current_time`. -/
def EventQueue.get_current_time (q : EventQueue T F A) : T :=
  q.current_time

/-- `EventQueue::empty`. -/
def EventQueue.empty (q : EventQueue T F A) : Bool :=
  q.event_queue.isEmpty

/-- The loop of `add_event` over the bucket list, together with the two lines
after it: the list after the callback has been stored. -/
def EventQueue.add_event_scan (time_stamp : T) (fun_ptr : F) (fun_arg : A) :
    List (EventQueueEntry T F A) → List (EventQueueEntry T F A)
  | [] =>
      -- the queue was empty, or the time stamp is larger than every bucket
      [(EventQueueEntry.create time_stamp).add_event fun_ptr fun_arg]
  | entry :: rest =>
      let time_stamp_compare_result :=
        EventQueueEntry.compare_time_stamp entry.get_time_stamp time_stamp
      if time_stamp_compare_result = 0 then
        -- equal time stamp: the callback goes into this bucket
        entry.add_event fun_ptr fun_arg :: rest
      else if time_stamp_compare_result > 0 then
        -- the bucket is later: a new bucket goes in front of it
        (EventQueueEntry.create time_stamp).add_event fun_ptr fun_arg :: entry :: rest
      else
        entry :: EventQueue.add_event_scan time_stamp fun_ptr fun_arg rest

/-- `EventQueue::add_event`. -/
def EventQueue.add_event (q : EventQueue T F A) (time_stamp : T) (fun_ptr : F) (fun_arg : A) :
    Except (Fault T F A) (EventQueue T F A) :=
  if EventQueueEntry.compare_time_stamp q.current_time time_stamp < 0 then
    .ok { q with event_queue := EventQueue.add_event_scan time_stamp fun_ptr fun_arg q.event_queue }
  else
    .error (.assertion_failed q)

/-- A sequence of `add_event` calls made one after the other; the first call
that faults ends the run. -/
def EventQueue.add_events (q : EventQueue T F A) :
    List (T × F × A) → Except (Fault T F A) (EventQueue T F A)
  | [] => .ok q
  | (time_stamp, fun_ptr, fun_arg) :: rest =>
      match q.add_event time_stamp fun_ptr fun_arg with
      | .ok q1 => EventQueue.add_events q1 rest
      | .error err => .error err

/-- One callback runs: the handler says what it does to the host state and which
`add_event` calls it makes on the queue. -/
def Event.run (h : Handler W T F A) (e : Event F A) (w : W) (q : EventQueue T F A) :
    Except (Fault T F A) (W × EventQueue T F A) :=
  match q.add_events (h e.fun_ptr e.fun_arg w q).2 with
  | .ok q1 => .ok ((h e.fun_ptr e.fun_arg w q).1, q1)
  | .error err => .error err

/-- Modelled from the spec: `EventQueueEntry::run_events`, which invokes every
callback of the bucket in insertion order with its stored argument.  The
callbacks run are those the bucket holds when the run starts; a returning
add_event call made by one of them cannot add to the bucket that is being
fired (`add_events_front_kept`).  The result carries the invocations made, in
order. -/
def EventQueueEntry.run_events (h : Handler W T F A) :
    List (Event F A) → W → EventQueue T F A →
      Except (Fault T F A) (W × EventQueue T F A × List (Invocation T F A))
  | [], w, q => .ok (w, q, [])
  | e :: es, w, q =>
      match e.run h w q with
      | .ok (w1, q1) =>
          match EventQueueEntry.run_events h es w1 q1 with
          | .ok (w2, q2, fired) =>
              .ok (w2, q2,
                { fun_ptr := e.fun_ptr, fun_arg := e.fun_arg,
                  observed_time := q.get_current_time } :: fired)
          | .error err => .error err
      | .error err => .error err

/-- `EventQueue::pop_front` of the bucket list. -/
def EventQueue.pop_front (q : EventQueue T F A) : EventQueue T F A :=
  { q with event_queue := q.event_queue.tail }

/-- `EventQueue::proceed`: the front bucket gives the new current time, its
callbacks run, and the front of the list is removed.  The result carries the
invocations made by this call. -/
def EventQueue.proceed (h : Handler W T F A) (w : W) (q : EventQueue T F A) :
    Except (Fault T F A) (W × EventQueue T F A × List (Invocation T F A)) :=
  match q.event_queue with
  | [] => .error .undefined_front
  | event_queue_entry :: _ =>
      match EventQueueEntry.run_events h event_queue_entry.events w
          { q with current_time := event_queue_entry.get_time_stamp } with
      | .ok (w1, q1, fired) => .ok (w1, q1.pop_front, fired)
      | .error err => .error err

/-! ## Properties of states -/

/-- The bucket list is strictly ascending by time stamp: sorted, and no two
buckets share a time stamp. -/
def strictly_ascending (l : List (EventQueueEntry T F A)) : Prop :=
  l.Pairwise (fun a b => a.time_stamp < b.time_stamp)

instance (l : List (EventQueueEntry T F A)) : Decidable (strictly_ascending l) := by
  unfold strictly_ascending
  infer_instance

/-- The pending callbacks of a bucket list in the order in which the driving
loop will fire them: bucket after bucket, each bucket in insertion order. -/
def pending_events (l : List (EventQueueEntry T F A)) : List (T × F × A) :=
  l.flatMap (fun b => b.events.map (fun e => (b.time_stamp, e.fun_ptr, e.fun_arg)))

/-- The bucket list `l1` continues `l`: every bucket of `l` is still in `l1`
under its time stamp, with its callbacks followed by zero or more new ones. -/
def continues (l l1 : List (EventQueueEntry T F A)) : Prop :=
  ∀ b ∈ l, ∃ b1 ∈ l1, b1.time_stamp = b.time_stamp ∧ ∃ more, b1.events = b.events ++ more

/-- The bucket list `l1` is `l` after add_event calls with time stamps later
than `t`: it continues `l`, it is strictly ascending when `l` is, and a bucket
of `l1` whose time stamp is not in `l` is later than `t`. -/
def extends_after (t : T) (l l1 : List (EventQueueEntry T F A)) : Prop :=
  continues l l1 ∧ (strictly_ascending l → strictly_ascending l1) ∧
    ∀ x ∈ l1, (∃ x0 ∈ l, x0.time_stamp = x.time_stamp) ∨ t < x.time_stamp

/-- The bucket list holds a bucket with time stamp `ts` whose callback sequence
satisfies `p`. -/
def bucket_with (l : List (EventQueueEntry T F A)) (ts : T) (p : List (Event F A) → Prop) :
    Prop :=
  ∃ b ∈ l, b.time_stamp = ts ∧ p b.events

/-- The state invariant of the queue between calls: the bucket list is strictly
ascending and every bucket is later than the current time. -/
def well_formed (q : EventQueue T F A) : Prop :=
  strictly_ascending q.event_queue ∧ ∀ b ∈ q.event_queue, q.current_time < b.time_stamp

/-! ## Drivers

The host code that calls the queue is not part of the sources; the two drivers
below apply the operations above in sequence so that statements about several
calls can be made. -/

/-- A call of the host on the queue. -/
inductive Call (T F A : Type) where
  | add_event (time_stamp : T) (fun_ptr : F) (fun_arg : A)
  | proceed
deriving DecidableEq

/-- A sequence of calls made one after the other.  The result carries, for each
call, the invocations made during it (none for add_event). -/
def EventQueue.run_calls (h : Handler W T F A) :
    List (Call T F A) → W → EventQueue T F A →
      Except (Fault T F A) (W × EventQueue T F A × List (List (Invocation T F A)))
  | [], w, q => .ok (w, q, [])
  | .add_event time_stamp fun_ptr fun_arg :: rest, w, q =>
      match q.add_event time_stamp fun_ptr fun_arg with
      | .ok q1 =>
          match EventQueue.run_calls h rest w q1 with
          | .ok (w2, q2, traces) => .ok (w2, q2, [] :: traces)
          | .error err => .error err
      | .error err => .error err
  | .proceed :: rest, w, q =>
      match q.proceed h w with
      | .ok (w1, q1, fired) =>
          match EventQueue.run_calls h rest w1 q1 with
          | .ok (w2, q2, traces) => .ok (w2, q2, fired :: traces)
          | .error err => .error err
      | .error err => .error err

/-- Modelled from the spec: the driving loop of the host, which calls proceed
until empty() is true.  At most `fuel` calls of proceed are made; the result is
`none` when the queue is not empty after them.  The result carries all
invocations made, in order. -/
def EventQueue.run_until_empty (h : Handler W T F A) :
    Nat → W → EventQueue T F A →
      Except (Fault T F A) (Option (W × EventQueue T F A × List (Invocation T F A)))
  | 0, w, q => if q.empty then .ok (some (w, q, [])) else .ok none
  | fuel + 1, w, q =>
      if q.empty then .ok (some (w, q, []))
      else
        match q.proceed h w with
        | .ok (w1, q1, fired) =>
            match EventQueue.run_until_empty h fuel w1 q1 with
            | .ok (some (w2, q2, fired2)) => .ok (some (w2, q2, fired ++ fired2))
            | .ok none => .ok none
            | .error err => .error err
        | .error err => .error err

/-- The states of the queue that can be reached from a freshly created queue by
calls of add_event and proceed that return.  The host state at each call of
proceed is arbitrary. -/
inductive Reachable [Zero T] (h : Handler W T F A) : EventQueue T F A → Prop
  | create : Reachable h EventQueue.create
  | add_event (q q1 : EventQueue T F A) (time_stamp : T) (fun_ptr : F) (fun_arg : A) :
      Reachable h q → q.add_event time_stamp fun_ptr fun_arg = .ok q1 → Reachable h q1
  | proceed (q q1 : EventQueue T F A) (w w1 : W) (fired : List (Invocation T F A)) :
      Reachable h q → q.proceed h w = .ok (w1, q1, fired) → Reachable h q1

/-- The bucket list after the scans of a sequence of add_event calls, made one
after the other. -/
def EventQueue.add_event_scans (calls : List (T × F × A)) (l : List (EventQueueEntry T F A)) :
    List (EventQueueEntry T F A) :=
  calls.foldl (fun l1 c => EventQueue.add_event_scan c.1 c.2.1 c.2.2 l1) l

/-- The add_event calls that the callbacks make while `run_events` runs them on
host state `w` and queue `q`, in the order in which they are made.  When a
call faults, the calls of the callbacks behind the faulting one are never
made. -/
def EventQueueEntry.requests_made (h : Handler W T F A) :
    List (Event F A) → W → EventQueue T F A → List (T × F × A)
  | [], _, _ => []
  | e :: es, w, q =>
      (h e.fun_ptr e.fun_arg w q).2 ++
        match e.run h w q with
        | .ok (w1, q1) => EventQueueEntry.requests_made h es w1 q1
        | .error _ => []

/-- The invocation that firing the event `e` at time `t` produces. -/
def Event.invocation (e : Event F A) (t : T) : Invocation T F A :=
  { fun_ptr := e.fun_ptr, fun_arg := e.fun_arg, observed_time := t }

/-- The time-stamped callbacks stably sorted: ascending time stamp, equal time
stamps in the order of the list. -/
def stable_sort_by_time_stamp (evs : List (T × F × A)) : List (T × F × A) :=
  evs.insertionSort (fun x y => x.1 ≤ y.1)

/-- One step of building the firing order: `x` goes behind every callback whose
time stamp is not later than its own. -/
def insert_behind (x : T × F × A) : List (T × F × A) → List (T × F × A)
  | [] => [x]
  | y :: s => if x.1 < y.1 then x :: y :: s else y :: insert_behind x s

/-! ## Concrete handlers and queues -/

/-- A handler whose callbacks never call add_event. -/
def quiet_handler : Handler Unit Nat Nat Nat :=
  fun _ _ w _ => (w, [])

/-- A handler whose callback 7 schedules callback 8 five time units later. -/
def rescheduling_handler : Handler Unit Nat Nat Nat :=
  fun f _ w q => if f = 7 then (w, [(q.get_current_time + 5, 8, 0)]) else (w, [])

/-- The queue after add_event at 10 and at 20, a first proceed, and add_event
at 15: the current time is 10 and the buckets at 15 and 20 are pending. -/
def reached_queue : EventQueue Nat Nat Nat :=
  { current_time := 10,
    event_queue := [{ time_stamp := 15, events := [{ fun_ptr := 3, fun_arg := 0 }] },
                    { time_stamp := 20, events := [{ fun_ptr := 2, fun_arg := 0 }] }] }

/-! ## The comparison of time stamps -/

theorem compare_time_stamp_neg_iff (t1 t2 : T) :
    EventQueueEntry.compare_time_stamp t1 t2 < 0 ↔ t1 < t2 := by
  unfold EventQueueEntry.compare_time_stamp
  split_ifs <;> simp_all

theorem compare_time_stamp_zero_iff (t1 t2 : T) :
    EventQueueEntry.compare_time_stamp t1 t2 = 0 ↔ t1 = t2 := by
  unfold EventQueueEntry.compare_time_stamp
  split_ifs with h1 h2
  · simp [ne_of_lt h1]
  · simp [ne_of_gt h2]
  · simp [le_antisymm (not_lt.mp h2) (not_lt.mp h1)]

theorem compare_time_stamp_pos_iff (t1 t2 : T) :
    EventQueueEntry.compare_time_stamp t1 t2 > 0 ↔ t2 < t1 := by
  unfold EventQueueEntry.compare_time_stamp
  split_ifs with h1 h2
  · simp [not_lt_of_lt h1]
  · simp [h2]
  · simp [h2]

/-! ## The scan of add_event -/

theorem add_event_scan_nil (ts : T) (f : F) (a : A) :
    EventQueue.add_event_scan ts f a ([] : List (EventQueueEntry T F A)) =
      [{ time_stamp := ts, events := [{ fun_ptr := f, fun_arg := a }] }] := rfl

theorem add_event_scan_cons_eq (ts : T) (f : F) (a : A) (b : EventQueueEntry T F A)
    (l : List (EventQueueEntry T F A)) (hb : b.time_stamp = ts) :
    EventQueue.add_event_scan ts f a (b :: l) =
      { b with events := b.events ++ [{ fun_ptr := f, fun_arg := a }] } :: l := by
  have h0 : EventQueueEntry.compare_time_stamp b.time_stamp ts = 0 :=
    (compare_time_stamp_zero_iff _ _).mpr hb
  simp [EventQueue.add_event_scan, EventQueueEntry.get_time_stamp, EventQueueEntry.add_event, h0]

theorem add_event_scan_cons_gt (ts : T) (f : F) (a : A) (b : EventQueueEntry T F A)
    (l : List (EventQueueEntry T F A)) (hb : ts < b.time_stamp) :
    EventQueue.add_event_scan ts f a (b :: l) =
      { time_stamp := ts, events := [{ fun_ptr := f, fun_arg := a }] } :: b :: l := by
  have h0 : ¬ EventQueueEntry.compare_time_stamp b.time_stamp ts = 0 := by
    rw [compare_time_stamp_zero_iff]; exact ne_of_gt hb
  have h1 : 0 < EventQueueEntry.compare_time_stamp b.time_stamp ts :=
    (compare_time_stamp_pos_iff _ _).mpr hb
  simp [EventQueue.add_event_scan, EventQueueEntry.get_time_stamp, EventQueueEntry.add_event,
    EventQueueEntry.create, h0, h1]

theorem add_event_scan_cons_lt (ts : T) (f : F) (a : A) (b : EventQueueEntry T F A)
    (l : List (EventQueueEntry T F A)) (hb : b.time_stamp < ts) :
    EventQueue.add_event_scan ts f a (b :: l) = b :: EventQueue.add_event_scan ts f a l := by
  have h0 : ¬ EventQueueEntry.compare_time_stamp b.time_stamp ts = 0 := by
    rw [compare_time_stamp_zero_iff]; exact ne_of_lt hb
  have h1 : ¬ 0 < EventQueueEntry.compare_time_stamp b.time_stamp ts := by
    have := (compare_time_stamp_pos_iff b.time_stamp ts)
    intro h; exact absurd (this.mp h) (not_lt_of_lt hb)
  simp [EventQueue.add_event_scan, EventQueueEntry.get_time_stamp, h0, h1]

/-- Every bucket after the scan carries the new time stamp or the time stamp of
a bucket that was there before. -/
theorem add_event_scan_time_stamp_mem (ts : T) (f : F) (a : A)
    (l : List (EventQueueEntry T F A)) :
    ∀ b ∈ EventQueue.add_event_scan ts f a l,
      b.time_stamp = ts ∨ ∃ b0 ∈ l, b0.time_stamp = b.time_stamp := by
  induction l with
  | nil => intro b hb; rw [add_event_scan_nil] at hb; simp at hb; left; rw [hb]
  | cons x l ih =>
    intro b hb
    rcases lt_trichotomy x.time_stamp ts with hx | hx | hx
    · rw [add_event_scan_cons_lt ts f a x l hx] at hb
      rcases List.mem_cons.mp hb with h | h
      · right; exact ⟨x, List.mem_cons_self _ _, by rw [h]⟩
      · rcases ih b h with h1 | ⟨b0, hb0, h2⟩
        · left; exact h1
        · right; exact ⟨b0, List.mem_cons_of_mem _ hb0, h2⟩
    · rw [add_event_scan_cons_eq ts f a x l hx] at hb
      rcases List.mem_cons.mp hb with h | h
      · left; rw [h]; exact hx
      · right; exact ⟨b, List.mem_cons_of_mem _ h, rfl⟩
    · rw [add_event_scan_cons_gt ts f a x l hx] at hb
      rcases List.mem_cons.mp hb with h | h
      · left; rw [h]
      · right; exact ⟨b, h, rfl⟩

/-- The scan keeps a strictly ascending bucket list strictly ascending. -/
theorem add_event_scan_strictly_ascending (ts : T) (f : F) (a : A)
    (l : List (EventQueueEntry T F A)) (hl : strictly_ascending l) :
    strictly_ascending (EventQueue.add_event_scan ts f a l) := by
  unfold strictly_ascending at *
  induction l with
  | nil => rw [add_event_scan_nil]; simp
  | cons x l ih =>
    have hx := List.pairwise_cons.mp hl
    rcases lt_trichotomy x.time_stamp ts with h | h | h
    · rw [add_event_scan_cons_lt ts f a x l h]
      refine List.pairwise_cons.mpr ⟨?_, ih hx.2⟩
      intro b hb
      rcases add_event_scan_time_stamp_mem ts f a l b hb with h1 | ⟨b0, hb0, h2⟩
      · rw [h1]; exact h
      · rw [← h2]; exact hx.1 b0 hb0
    · rw [add_event_scan_cons_eq ts f a x l h]
      exact List.pairwise_cons.mpr ⟨fun b hb => hx.1 b hb, hx.2⟩
    · rw [add_event_scan_cons_gt ts f a x l h]
      refine List.pairwise_cons.mpr ⟨?_, hl⟩
      intro b hb
      rcases List.mem_cons.mp hb with h1 | h1
      · rw [h1]; exact h
      · exact lt_trans h (hx.1 b h1)

/-! ## add_event -/

theorem add_event_ok (q : EventQueue T F A) (ts : T) (f : F) (a : A)
    (ht : EventQueueEntry.compare_time_stamp q.current_time ts < 0) :
    q.add_event ts f a =
      .ok { q with event_queue := EventQueue.add_event_scan ts f a q.event_queue } := by
  simp [EventQueue.add_event, ht]

theorem add_event_error (q : EventQueue T F A) (ts : T) (f : F) (a : A)
    (ht : ¬ EventQueueEntry.compare_time_stamp q.current_time ts < 0) :
    q.add_event ts f a = .error (.assertion_failed q) := by
  simp [EventQueue.add_event, ht]

/-- A sequence of add_event calls whose time stamps are all later than the
current time returns, keeps the current time, and keeps a strictly ascending
bucket list strictly ascending. -/
theorem add_events_ok (calls : List (T × F × A)) :
    ∀ (q : EventQueue T F A),
      (∀ c ∈ calls, EventQueueEntry.compare_time_stamp q.current_time c.1 < 0) →
      ∃ q1, q.add_events calls = .ok q1 ∧ q1.current_time = q.current_time ∧
        (strictly_ascending q.event_queue → strictly_ascending q1.event_queue) := by
  induction calls with
  | nil => intro q _; exact ⟨q, rfl, rfl, id⟩
  | cons c calls ih =>
    intro q hc
    obtain ⟨ts, f, a⟩ := c
    have h1 := hc (ts, f, a) (List.mem_cons_self _ _)
    obtain ⟨q1, hq1, hclock, hsorted⟩ :=
      ih { q with event_queue := EventQueue.add_event_scan ts f a q.event_queue }
        (fun c hcm => hc c (List.mem_cons_of_mem _ hcm))
    refine ⟨q1, ?_, hclock, fun hq => hsorted (add_event_scan_strictly_ascending ts f a _ hq)⟩
    simp only [EventQueue.add_events, add_event_ok q ts f a h1]
    exact hq1

theorem add_event_scan_append (ts : T) (f : F) (a : A)
    (pre post : List (EventQueueEntry T F A)) (hpre : ∀ b ∈ pre, b.time_stamp < ts) :
    EventQueue.add_event_scan ts f a (pre ++ post) = pre ++ EventQueue.add_event_scan ts f a post := by
  induction pre with
  | nil => rfl
  | cons x pre ih =>
    rw [List.cons_append, add_event_scan_cons_lt ts f a x _ (hpre x (List.mem_cons_self _ _)),
      ih (fun b hb => hpre b (List.mem_cons_of_mem _ hb)), List.cons_append]

theorem continues_refl (l : List (EventQueueEntry T F A)) : continues l l :=
  fun b hb => ⟨b, hb, rfl, [], (List.append_nil _).symm⟩

theorem continues_trans {l1 l2 l3 : List (EventQueueEntry T F A)}
    (h12 : continues l1 l2) (h23 : continues l2 l3) : continues l1 l3 := by
  intro b hb
  obtain ⟨b2, hb2, ht2, m2, he2⟩ := h12 b hb
  obtain ⟨b3, hb3, ht3, m3, he3⟩ := h23 b2 hb2
  exact ⟨b3, hb3, ht3.trans ht2, m2 ++ m3, by rw [he3, he2, List.append_assoc]⟩

theorem continues_cons {l l1 : List (EventQueueEntry T F A)} (x : EventQueueEntry T F A)
    (h : continues l l1) : continues l (x :: l1) := by
  intro b hb
  obtain ⟨b1, hb1, ht, m, he⟩ := h b hb
  exact ⟨b1, List.mem_cons_of_mem _ hb1, ht, m, he⟩

theorem add_event_scan_continues (ts : T) (f : F) (a : A) (l : List (EventQueueEntry T F A)) :
    continues l (EventQueue.add_event_scan ts f a l) := by
  induction l with
  | nil => intro b hb; simp at hb
  | cons x l ih =>
    intro b hb
    rcases lt_trichotomy x.time_stamp ts with hx | hx | hx
    · rw [add_event_scan_cons_lt ts f a x l hx]
      rcases List.mem_cons.mp hb with h | h
      · exact ⟨x, List.mem_cons_self _ _, by rw [h], [], by rw [h, List.append_nil]⟩
      · exact continues_cons x ih b h
    · rw [add_event_scan_cons_eq ts f a x l hx]
      rcases List.mem_cons.mp hb with h | h
      · exact ⟨_, List.mem_cons_self _ _, by rw [h], [⟨f, a⟩], by rw [h]⟩
      · exact ⟨b, List.mem_cons_of_mem _ h, rfl, [], (List.append_nil _).symm⟩
    · rw [add_event_scan_cons_gt ts f a x l hx]
      exact ⟨b, List.mem_cons_of_mem _ hb, rfl, [], (List.append_nil _).symm⟩

theorem extends_after_refl (t : T) (l : List (EventQueueEntry T F A)) : extends_after t l l :=
  ⟨continues_refl l, id, fun x hx => Or.inl ⟨x, hx, rfl⟩⟩

theorem extends_after_trans {t : T} {l1 l2 l3 : List (EventQueueEntry T F A)}
    (h12 : extends_after t l1 l2) (h23 : extends_after t l2 l3) : extends_after t l1 l3 := by
  refine ⟨continues_trans h12.1 h23.1, fun hs => h23.2.1 (h12.2.1 hs), ?_⟩
  intro x hx
  rcases h23.2.2 x hx with ⟨x0, hx0, ht⟩ | hlt
  · rcases h12.2.2 x0 hx0 with ⟨x1, hx1, ht1⟩ | hlt
    · exact Or.inl ⟨x1, hx1, ht1.trans ht⟩
    · exact Or.inr (ht ▸ hlt)
  · exact Or.inr hlt

theorem add_event_scan_extends_after (t ts : T) (f : F) (a : A)
    (l : List (EventQueueEntry T F A)) (ht : t < ts) :
    extends_after t l (EventQueue.add_event_scan ts f a l) := by
  refine ⟨add_event_scan_continues ts f a l, add_event_scan_strictly_ascending ts f a l, ?_⟩
  intro x hx
  rcases add_event_scan_time_stamp_mem ts f a l x hx with h | h
  · exact Or.inr (h ▸ ht)
  · exact Or.inl h

/-- What a returning call of add_event did. -/
theorem add_event_ok_inv {q q1 : EventQueue T F A} {ts : T} {f : F} {a : A}
    (h : q.add_event ts f a = .ok q1) :
    q.current_time < ts ∧
      q1 = { q with event_queue := EventQueue.add_event_scan ts f a q.event_queue } := by
  unfold EventQueue.add_event at h
  split_ifs at h with hc
  · exact ⟨(compare_time_stamp_neg_iff _ _).mp hc, (Except.ok.inj h).symm⟩

/-- What a returning sequence of add_event calls did. -/
theorem add_events_ok_inv (calls : List (T × F × A)) :
    ∀ (q q1 : EventQueue T F A), q.add_events calls = .ok q1 →
      q1.current_time = q.current_time ∧
        extends_after q.current_time q.event_queue q1.event_queue := by
  induction calls with
  | nil =>
    intro q q1 h
    simp only [EventQueue.add_events] at h
    cases (Except.ok.inj h)
    exact ⟨rfl, extends_after_refl _ _⟩
  | cons c calls ih =>
    intro q q1 h
    obtain ⟨ts, f, a⟩ := c
    simp only [EventQueue.add_events] at h
    cases hq : q.add_event ts f a with
    | error e => rw [hq] at h; cases h
    | ok q2 =>
      rw [hq] at h
      obtain ⟨hlt, rfl⟩ := add_event_ok_inv hq
      obtain ⟨hc, he⟩ := ih _ q1 h
      exact ⟨hc, extends_after_trans (add_event_scan_extends_after _ ts f a _ hlt) he⟩

/-- While a bucket with the current time as its time stamp is at the front, a
returning sequence of add_event calls leaves that bucket as it is, at the
front. -/
theorem add_events_front_kept (calls : List (T × F × A)) :
    ∀ (q q1 : EventQueue T F A) (b : EventQueueEntry T F A) (rest : List (EventQueueEntry T F A)),
      q.event_queue = b :: rest → b.time_stamp ≤ q.current_time →
      q.add_events calls = .ok q1 →
      q1.current_time = q.current_time ∧
        ∃ rest1, q1.event_queue = b :: rest1 ∧ extends_after q.current_time rest rest1 := by
  induction calls with
  | nil =>
    intro q q1 b rest hq _ h
    simp only [EventQueue.add_events] at h
    cases (Except.ok.inj h)
    exact ⟨rfl, rest, hq, extends_after_refl _ _⟩
  | cons c calls ih =>
    intro q q1 b rest hq hb h
    obtain ⟨ts, f, a⟩ := c
    simp only [EventQueue.add_events] at h
    cases hq2 : q.add_event ts f a with
    | error e => rw [hq2] at h; cases h
    | ok q2 =>
      rw [hq2] at h
      obtain ⟨hlt, rfl⟩ := add_event_ok_inv hq2
      have hscan : EventQueue.add_event_scan ts f a q.event_queue
          = b :: EventQueue.add_event_scan ts f a rest := by
        rw [hq]; exact add_event_scan_cons_lt ts f a b rest (lt_of_le_of_lt hb hlt)
      obtain ⟨hc, rest1, hr1, he⟩ :=
        ih { q with event_queue := EventQueue.add_event_scan ts f a q.event_queue } q1 b _
          hscan hb h
      exact ⟨hc, rest1, hr1,
        extends_after_trans (add_event_scan_extends_after _ ts f a _ hlt) he⟩

/-! ## run_events and proceed -/

theorem event_run_ok_inv {h : Handler W T F A} {e : Event F A} {w w1 : W}
    {q q1 : EventQueue T F A} (hr : e.run h w q = .ok (w1, q1)) :
    q.add_events (h e.fun_ptr e.fun_arg w q).2 = .ok q1 := by
  unfold Event.run at hr
  cases hq : q.add_events (h e.fun_ptr e.fun_arg w q).2 with
  | error err => rw [hq] at hr; cases hr
  | ok q2 =>
    rw [hq] at hr
    have := Except.ok.inj hr
    rw [(Prod.mk.inj this).2]

/-- What a returning run of the callbacks of the front bucket did: the current
time is unchanged, every callback was invoked once, in order, and saw the
current time, and the bucket is still at the front, as it was. -/
theorem run_events_ok_inv (h : Handler W T F A) (es : List (Event F A)) :
    ∀ (w w1 : W) (q q1 : EventQueue T F A) (fired : List (Invocation T F A))
      (b : EventQueueEntry T F A) (rest : List (EventQueueEntry T F A)),
      q.event_queue = b :: rest → b.time_stamp ≤ q.current_time →
      EventQueueEntry.run_events h es w q = .ok (w1, q1, fired) →
      q1.current_time = q.current_time ∧
        fired = es.map (fun e => e.invocation q.current_time) ∧
        ∃ rest1, q1.event_queue = b :: rest1 ∧ extends_after q.current_time rest rest1 := by
  induction es with
  | nil =>
    intro w w1 q q1 fired b rest hq _ hr
    simp only [EventQueueEntry.run_events] at hr
    have h1 := Prod.mk.inj (Except.ok.inj hr)
    have h2 := Prod.mk.inj h1.2
    rw [← h2.1, ← h2.2]
    exact ⟨rfl, rfl, rest, hq, extends_after_refl _ _⟩
  | cons e es ih =>
    intro w w1 q q1 fired b rest hq hb hr
    simp only [EventQueueEntry.run_events] at hr
    cases he : e.run h w q with
    | error err => rw [he] at hr; cases hr
    | ok r =>
      obtain ⟨w2, q2⟩ := r
      rw [he] at hr
      simp only at hr
      cases hrest : EventQueueEntry.run_events h es w2 q2 with
      | error err => rw [hrest] at hr; cases hr
      | ok r2 =>
        obtain ⟨w3, q3, fired3⟩ := r2
        rw [hrest] at hr
        simp only at hr
        have h1 := Prod.mk.inj (Except.ok.inj hr)
        have h2 := Prod.mk.inj h1.2
        obtain ⟨hc2, rest2, hq2, hext2⟩ :=
          add_events_front_kept _ q q2 b rest hq hb (event_run_ok_inv he)
        obtain ⟨hc3, hf3, rest3, hq3, hext3⟩ :=
          ih w2 w3 q2 q3 fired3 b rest2 hq2 (hc2 ▸ hb) hrest
        rw [← h2.1, ← h2.2]
        refine ⟨hc3.trans hc2, ?_, rest3, hq3, extends_after_trans hext2 (hc2 ▸ hext3)⟩
        rw [hf3, hc2]
        rfl

/-- What a returning call of proceed did. -/
theorem proceed_ok_inv {h : Handler W T F A} {w w1 : W} {q q1 : EventQueue T F A}
    {fired : List (Invocation T F A)} {b : EventQueueEntry T F A}
    {rest : List (EventQueueEntry T F A)}
    (hq : q.event_queue = b :: rest) (hp : q.proceed h w = .ok (w1, q1, fired)) :
    q1.current_time = b.time_stamp ∧
      fired = b.events.map (fun e => e.invocation b.time_stamp) ∧
      extends_after b.time_stamp rest q1.event_queue := by
  obtain ⟨c, l⟩ := q
  simp only at hq
  subst hq
  simp only [EventQueue.proceed] at hp
  cases hr : EventQueueEntry.run_events h b.events w
      { current_time := b.get_time_stamp, event_queue := b :: rest } with
  | error err => rw [hr] at hp; cases hp
  | ok r =>
    obtain ⟨w2, q2, fired2⟩ := r
    rw [hr] at hp
    simp only at hp
    have h1 := Prod.mk.inj (Except.ok.inj hp)
    have h2 := Prod.mk.inj h1.2
    obtain ⟨hc, hf, rest1, hq1, hext⟩ :=
      run_events_ok_inv h b.events w w2
        { current_time := b.get_time_stamp, event_queue := b :: rest } q2 fired2
        b rest rfl (le_refl _) hr
    rw [← h2.1, ← h2.2]
    refine ⟨hc, hf, ?_⟩
    simp only [EventQueue.pop_front, hq1, List.tail_cons]
    exact hext

/-- Callbacks that make no add_event call leave the queue as it is. -/
theorem run_events_quiet (h : Handler W T F A) (es : List (Event F A))
    (hquiet : ∀ e ∈ es, ∀ w q, (h e.fun_ptr e.fun_arg w q).2 = []) :
    ∀ (w : W) (q : EventQueue T F A), ∃ w1,
      EventQueueEntry.run_events h es w q =
        .ok (w1, q, es.map (fun e => e.invocation q.current_time)) := by
  induction es with
  | nil => intro w q; exact ⟨w, rfl⟩
  | cons e es ih =>
    intro w q
    have he : e.run h w q = .ok ((h e.fun_ptr e.fun_arg w q).1, q) := by
      simp [Event.run, hquiet e (List.mem_cons_self _ _) w q, EventQueue.add_events]
    obtain ⟨w1, h1⟩ := ih (fun e he => hquiet e (List.mem_cons_of_mem _ he))
      (h e.fun_ptr e.fun_arg w q).1 q
    refine ⟨w1, ?_⟩
    simp only [EventQueueEntry.run_events, he, h1]
    rfl

/-- With callbacks that make no add_event call, proceed on a queue that is not
empty returns, and leaves exactly the buckets behind the front one. -/
theorem proceed_quiet (h : Handler W T F A) (w : W) (q : EventQueue T F A)
    (b : EventQueueEntry T F A) (rest : List (EventQueueEntry T F A))
    (hq : q.event_queue = b :: rest)
    (hquiet : ∀ e ∈ b.events, ∀ w q, (h e.fun_ptr e.fun_arg w q).2 = []) :
    ∃ w1, q.proceed h w =
      .ok (w1, { current_time := b.time_stamp, event_queue := rest },
        b.events.map (fun e => e.invocation b.time_stamp)) := by
  obtain ⟨c, l⟩ := q
  simp only at hq
  subst hq
  obtain ⟨w1, h1⟩ := run_events_quiet h b.events hquiet w
    { current_time := b.get_time_stamp, event_queue := b :: rest }
  refine ⟨w1, ?_⟩
  simp only [EventQueue.proceed, h1]
  rfl

/-- A fault of a sequence of add_event calls is a failed assertion. -/
theorem add_events_error_inv (calls : List (T × F × A)) :
    ∀ (q : EventQueue T F A) (err : Fault T F A), q.add_events calls = .error err →
      ∃ s, err = .assertion_failed s := by
  induction calls with
  | nil => intro q err h; simp [EventQueue.add_events] at h
  | cons c calls ih =>
    intro q err h
    obtain ⟨ts, f, a⟩ := c
    simp only [EventQueue.add_events] at h
    by_cases hc : EventQueueEntry.compare_time_stamp q.current_time ts < 0
    · rw [add_event_ok q ts f a hc] at h
      exact ih _ err h
    · rw [add_event_error q ts f a hc] at h
      exact ⟨q, (Except.error.inj h).symm⟩

/-- A fault of run_events is a failed assertion of an add_event call made by a
callback. -/
theorem run_events_error_inv (h : Handler W T F A) (es : List (Event F A)) :
    ∀ (w : W) (q : EventQueue T F A) (err : Fault T F A),
      EventQueueEntry.run_events h es w q = .error err → ∃ s, err = .assertion_failed s := by
  induction es with
  | nil => intro w q err hr; simp [EventQueueEntry.run_events] at hr
  | cons e es ih =>
    intro w q err hr
    simp only [EventQueueEntry.run_events] at hr
    cases he : e.run h w q with
    | error err2 =>
      rw [he] at hr
      simp only at hr
      unfold Event.run at he
      cases ha : q.add_events (h e.fun_ptr e.fun_arg w q).2 with
      | error err3 =>
        rw [ha] at he
        simp only at he
        obtain ⟨s, hs⟩ := add_events_error_inv _ q err3 ha
        exact ⟨s, by rw [← Except.error.inj hr, ← Except.error.inj he, hs]⟩
      | ok q2 => rw [ha] at he; cases he
    | ok r =>
      obtain ⟨w2, q2⟩ := r
      rw [he] at hr
      simp only at hr
      cases hrest : EventQueueEntry.run_events h es w2 q2 with
      | error err2 =>
        rw [hrest] at hr
        simp only at hr
        obtain ⟨s, hs⟩ := ih w2 q2 err2 hrest
        exact ⟨s, by rw [← Except.error.inj hr, hs]⟩
      | ok r2 => rw [hrest] at hr; cases hr

/-! ## The state invariant -/

theorem well_formed_create [Zero T] : well_formed (EventQueue.create : EventQueue T F A) :=
  ⟨List.Pairwise.nil, fun _ hb => absurd hb (List.not_mem_nil _)⟩

theorem well_formed_add_event {q q1 : EventQueue T F A} {ts : T} {f : F} {a : A}
    (hw : well_formed q) (h : q.add_event ts f a = .ok q1) : well_formed q1 := by
  obtain ⟨hlt, rfl⟩ := add_event_ok_inv h
  obtain ⟨-, hs, hm⟩ := add_event_scan_extends_after q.current_time ts f a q.event_queue hlt
  refine ⟨hs hw.1, ?_⟩
  intro b hb
  rcases hm b hb with ⟨b0, hb0, ht⟩ | hlt2
  · exact ht ▸ hw.2 b0 hb0
  · exact hlt2

/-- After a returning call of proceed on a strictly ascending bucket list the
state invariant holds. -/
theorem well_formed_proceed {h : Handler W T F A} {w w1 : W} {q q1 : EventQueue T F A}
    {fired : List (Invocation T F A)}
    (hs : strictly_ascending q.event_queue) (hp : q.proceed h w = .ok (w1, q1, fired)) :
    well_formed q1 := by
  cases hq : q.event_queue with
  | nil => simp [EventQueue.proceed, hq] at hp
  | cons b rest =>
    obtain ⟨hc, -, -, hsort, hm⟩ := proceed_ok_inv hq hp
    rw [hq] at hs
    have hb := List.pairwise_cons.mp hs
    refine ⟨hsort hb.2, ?_⟩
    intro x hx
    rw [hc]
    rcases hm x hx with ⟨x0, hx0, ht⟩ | hlt
    · exact ht ▸ hb.1 x0 hx0
    · exact hlt

theorem reachable_well_formed [Zero T] {h : Handler W T F A} {q : EventQueue T F A}
    (hq : Reachable h q) : well_formed q := by
  induction hq with
  | create => exact well_formed_create
  | add_event q q1 ts f a _ hadd ih => exact well_formed_add_event ih hadd
  | proceed q q1 w w1 fired _ hp ih => exact well_formed_proceed ih.1 hp

/-- In a strictly ascending bucket list a time stamp names at most one bucket. -/
theorem strictly_ascending_time_stamp_inj {l : List (EventQueueEntry T F A)}
    (hs : strictly_ascending l) {b1 b2 : EventQueueEntry T F A} (h1 : b1 ∈ l) (h2 : b2 ∈ l)
    (ht : b1.time_stamp = b2.time_stamp) : b1 = b2 := by
  unfold strictly_ascending at hs
  induction l with
  | nil => exact absurd h1 (List.not_mem_nil _)
  | cons x l ih =>
    have hx := List.pairwise_cons.mp hs
    rcases List.mem_cons.mp h1 with e1 | m1 <;> rcases List.mem_cons.mp h2 with e2 | m2
    · rw [e1, e2]
    · exact absurd (e1 ▸ ht ▸ hx.1 b2 m2) (lt_irrefl _)
    · exact absurd (e2 ▸ ht ▸ hx.1 b1 m1) (lt_irrefl _)
    · exact ih hx.2 m1 m2

/-- A strictly ascending bucket list splits at a time stamp: the buckets before
it, then the bucket with that time stamp if there is one, then the buckets
after it. -/
theorem strictly_ascending_split {l : List (EventQueueEntry T F A)}
    (hs : strictly_ascending l) (ts : T) :
    ∃ pre post, l = pre ++ post ∧ (∀ b ∈ pre, b.time_stamp < ts) ∧
      (∀ b ∈ post.tail, ts < b.time_stamp) ∧ ∀ b ∈ post.head?, ts ≤ b.time_stamp := by
  unfold strictly_ascending at hs
  induction l with
  | nil => exact ⟨[], [], rfl, by simp, by simp, by simp⟩
  | cons x l ih =>
    have hx := List.pairwise_cons.mp hs
    by_cases hlt : x.time_stamp < ts
    · obtain ⟨pre, post, hl, hpre, hpost, hhead⟩ := ih hx.2
      refine ⟨x :: pre, post, by rw [hl, List.cons_append], ?_, hpost, hhead⟩
      intro b hb
      rcases List.mem_cons.mp hb with e | m
      · exact e ▸ hlt
      · exact hpre b m
    · refine ⟨[], x :: l, rfl, by simp, ?_, ?_⟩
      · intro b hb
        exact lt_of_le_of_lt (not_lt.mp hlt) (hx.1 b hb)
      · intro b hb
        simp only [List.head?_cons, Option.mem_def, Option.some.injEq] at hb
        exact hb ▸ not_lt.mp hlt

/-! ## Buckets that stay pending -/

theorem bucket_with_continues {l l1 : List (EventQueueEntry T F A)} {ts : T}
    {p : List (Event F A) → Prop} (hc : continues l l1)
    (hp : ∀ es more, p es → p (es ++ more)) (hb : bucket_with l ts p) :
    bucket_with l1 ts p := by
  obtain ⟨b, hbl, hbt, hpb⟩ := hb
  obtain ⟨b1, hb1, ht1, more, he⟩ := hc b hbl
  exact ⟨b1, hb1, ht1.trans hbt, he ▸ hp _ more hpb⟩

/-- After the scan there is a bucket with the time stamp of the call whose last
callback is the new one. -/
theorem add_event_scan_bucket_with (ts : T) (f : F) (a : A) (l : List (EventQueueEntry T F A)) :
    bucket_with (EventQueue.add_event_scan ts f a l) ts
      (fun es => ∃ es0, es = es0 ++ [{ fun_ptr := f, fun_arg := a }]) := by
  induction l with
  | nil => exact ⟨_, List.mem_cons_self _ _, rfl, [], rfl⟩
  | cons x l ih =>
    rcases lt_trichotomy x.time_stamp ts with hx | hx | hx
    · rw [add_event_scan_cons_lt ts f a x l hx]
      obtain ⟨b, hb, hbt, hp⟩ := ih
      exact ⟨b, List.mem_cons_of_mem _ hb, hbt, hp⟩
    · rw [add_event_scan_cons_eq ts f a x l hx]
      exact ⟨_, List.mem_cons_self _ _, hx, x.events, rfl⟩
    · rw [add_event_scan_cons_gt ts f a x l hx]
      exact ⟨_, List.mem_cons_self _ _, rfl, [], rfl⟩

/-- The scan on a strictly ascending bucket list that holds the bucket b with
the time stamp of the call: the callback goes to the end of b, nothing else
changes. -/
theorem add_event_scan_at_bucket (ts : T) (f : F) (a : A) (l : List (EventQueueEntry T F A))
    (b : EventQueueEntry T F A) (hs : strictly_ascending l) (hb : b ∈ l)
    (hbt : b.time_stamp = ts) :
    ∃ pre post, l = pre ++ b :: post ∧
      EventQueue.add_event_scan ts f a l =
        pre ++ { time_stamp := b.time_stamp,
                 events := b.events ++ [{ fun_ptr := f, fun_arg := a }] } :: post := by
  obtain ⟨pre, post, hl⟩ := List.append_of_mem hb
  have hpre : ∀ x ∈ pre, x.time_stamp < ts := by
    intro x hx
    unfold strictly_ascending at hs
    rw [hl] at hs
    exact hbt ▸ (List.pairwise_append.mp hs).2.2 x hx b (List.mem_cons_self _ _)
  refine ⟨pre, post, hl, ?_⟩
  rw [hl, add_event_scan_append _ _ _ pre _ hpre, add_event_scan_cons_eq _ _ _ b post hbt]

/-- Every call of a returning sequence of add_event calls has its callback in a
bucket with its time stamp. -/
theorem add_events_bucket_with (calls : List (T × F × A)) :
    ∀ (q q1 : EventQueue T F A), q.add_events calls = .ok q1 →
      ∀ c ∈ calls, bucket_with q1.event_queue c.1
        (fun es => ({ fun_ptr := c.2.1, fun_arg := c.2.2 } : Event F A) ∈ es) := by
  induction calls with
  | nil => intro q q1 _ c hc; exact absurd hc (List.not_mem_nil _)
  | cons c0 calls ih =>
    intro q q1 h c hc
    obtain ⟨ts, f, a⟩ := c0
    simp only [EventQueue.add_events] at h
    cases hq2 : q.add_event ts f a with
    | error e => rw [hq2] at h; cases h
    | ok q2 =>
      rw [hq2] at h
      simp only at h
      rcases List.mem_cons.mp hc with e | m
      · obtain ⟨-, rfl⟩ := add_event_ok_inv hq2
        obtain ⟨-, hext⟩ := add_events_ok_inv calls _ q1 h
        rw [e]
        refine bucket_with_continues hext.1 (fun es more hp => List.mem_append_left _ hp) ?_
        obtain ⟨b, hb, hbt, es0, hes⟩ := add_event_scan_bucket_with ts f a q.event_queue
        exact ⟨b, hb, hbt, by rw [hes]; simp⟩
      · exact ih q2 q1 h c m

/-- In a strictly ascending bucket list the bucket with the smaller time stamp
stands before the bucket with the larger one. -/
theorem strictly_ascending_order {l : List (EventQueueEntry T F A)}
    (hs : strictly_ascending l) {b1 b2 : EventQueueEntry T F A} (h1 : b1 ∈ l) (h2 : b2 ∈ l)
    (hlt : b1.time_stamp < b2.time_stamp) :
    ∃ pre mid post, l = pre ++ b1 :: (mid ++ b2 :: post) := by
  obtain ⟨pre, post, hl⟩ := List.append_of_mem h1
  unfold strictly_ascending at hs
  rw [hl] at hs h2
  have hp := List.pairwise_append.mp hs
  rcases List.mem_append.mp h2 with m | m
  · exact absurd (hp.2.2 b2 m b1 (List.mem_cons_self _ _)) (not_lt_of_lt hlt)
  · rcases List.mem_cons.mp m with e | m2
    · exact absurd (e ▸ hlt) (lt_irrefl _)
    · obtain ⟨mid, post2, hpost⟩ := List.append_of_mem m2
      exact ⟨pre, mid, post2, by rw [hl, hpost]⟩

theorem add_events_append (l1 l2 : List (T × F × A)) :
    ∀ (q q1 : EventQueue T F A), q.add_events l1 = .ok q1 →
      q.add_events (l1 ++ l2) = q1.add_events l2 := by
  induction l1 with
  | nil =>
    intro q q1 h
    simp only [EventQueue.add_events] at h
    rw [← Except.ok.inj h]
    rfl
  | cons c l1 ih =>
    intro q q1 h
    obtain ⟨ts, f, a⟩ := c
    simp only [EventQueue.add_events, List.cons_append] at h ⊢
    cases hq2 : q.add_event ts f a with
    | error e => rw [hq2] at h; cases h
    | ok q2 =>
      rw [hq2] at h
      exact ih q2 q1 h

/-! ## Sequences of calls -/

theorem run_calls_add_event_inv {h : Handler W T F A} {ts : T} {f : F} {a : A}
    {rest : List (Call T F A)} {w w1 : W} {q q1 : EventQueue T F A}
    {traces : List (List (Invocation T F A))}
    (hr : q.run_calls h (.add_event ts f a :: rest) w = .ok (w1, q1, traces)) :
    ∃ q2 traces1, q.add_event ts f a = .ok q2 ∧
      q2.run_calls h rest w = .ok (w1, q1, traces1) ∧ traces = [] :: traces1 := by
  simp only [EventQueue.run_calls] at hr
  cases hq2 : q.add_event ts f a with
  | error e => rw [hq2] at hr; cases hr
  | ok q2 =>
    rw [hq2] at hr
    simp only at hr
    cases hrest : EventQueue.run_calls h rest w q2 with
    | error e => rw [hrest] at hr; cases hr
    | ok r =>
      obtain ⟨w3, q3, traces3⟩ := r
      rw [hrest] at hr
      simp only at hr
      have h1 := Prod.mk.inj (Except.ok.inj hr)
      have h2 := Prod.mk.inj h1.2
      exact ⟨q2, traces3, rfl, by rw [← h1.1, ← h2.1]; exact hrest, h2.2.symm⟩

theorem run_calls_proceed_inv {h : Handler W T F A}
    {rest : List (Call T F A)} {w w1 : W} {q q1 : EventQueue T F A}
    {traces : List (List (Invocation T F A))}
    (hr : q.run_calls h (.proceed :: rest) w = .ok (w1, q1, traces)) :
    ∃ w2 q2 fired traces1, q.proceed h w = .ok (w2, q2, fired) ∧
      q2.run_calls h rest w2 = .ok (w1, q1, traces1) ∧ traces = fired :: traces1 := by
  simp only [EventQueue.run_calls] at hr
  cases hp : q.proceed h w with
  | error e => rw [hp] at hr; cases hr
  | ok r0 =>
    obtain ⟨w2, q2, fired⟩ := r0
    rw [hp] at hr
    simp only at hr
    cases hrest : EventQueue.run_calls h rest w2 q2 with
    | error e => rw [hrest] at hr; cases hr
    | ok r =>
      obtain ⟨w3, q3, traces3⟩ := r
      rw [hrest] at hr
      simp only at hr
      have h1 := Prod.mk.inj (Except.ok.inj hr)
      have h2 := Prod.mk.inj h1.2
      exact ⟨w2, q2, fired, traces3, rfl, by rw [← h1.1, ← h2.1]; exact hrest, h2.2.symm⟩

/-- What proceed does to a pending bucket on a strictly ascending bucket list:
the bucket is the front one and is fired, or it stays pending, behind a front
bucket with an earlier time stamp. -/
theorem proceed_bucket_with {h : Handler W T F A} {w w1 : W} {q q1 : EventQueue T F A}
    {fired : List (Invocation T F A)} {ts : T} {p : List (Event F A) → Prop}
    (hs : strictly_ascending q.event_queue) (hp : q.proceed h w = .ok (w1, q1, fired))
    (hclosed : ∀ es more, p es → p (es ++ more)) (hb : bucket_with q.event_queue ts p) :
    strictly_ascending q1.event_queue ∧
    ((∃ es, p es ∧ fired = es.map (fun e => e.invocation ts)) ∨
      (bucket_with q1.event_queue ts p ∧ ∀ inv ∈ fired, inv.observed_time < ts)) := by
  cases hq : q.event_queue with
  | nil => simp [EventQueue.proceed, hq] at hp
  | cons b rest =>
    obtain ⟨-, hf, hcont, hsort, -⟩ := proceed_ok_inv hq hp
    have hb0 := List.pairwise_cons.mp (hq ▸ hs)
    refine ⟨hsort hb0.2, ?_⟩
    obtain ⟨b1, hb1, hbt, hpb⟩ := hb
    rw [hq] at hb1
    rcases List.mem_cons.mp hb1 with e | m
    · left
      subst e
      exact ⟨b1.events, hpb, by rw [hf, hbt]⟩
    · right
      refine ⟨bucket_with_continues hcont hclosed ⟨b1, m, hbt, hpb⟩, ?_⟩
      intro inv hinv
      rw [hf] at hinv
      obtain ⟨e, -, he⟩ := List.mem_map.mp hinv
      rw [← he, ← hbt]
      exact hb0.1 b1 m

/-- A pending bucket is not lost by a returning sequence of calls: it is still
pending at the end, or one call of the sequence has fired it, all of it, and
no earlier call has fired anything at its time stamp or later. -/
theorem run_calls_bucket_with (h : Handler W T F A) (ts : T) (p : List (Event F A) → Prop)
    (hclosed : ∀ es more, p es → p (es ++ more)) (calls : List (Call T F A)) :
    ∀ (w w1 : W) (q q1 : EventQueue T F A) (traces : List (List (Invocation T F A))),
      strictly_ascending q.event_queue → bucket_with q.event_queue ts p →
      q.run_calls h calls w = .ok (w1, q1, traces) →
      (bucket_with q1.event_queue ts p ∧
        ∀ (i : Nat) (fired : List (Invocation T F A)), traces[i]? = some fired →
          ∀ inv ∈ fired, inv.observed_time < ts) ∨
      (∃ j es, p es ∧ traces[j]? = some (es.map (fun e => e.invocation ts)) ∧
        ∀ (i : Nat) (fired : List (Invocation T F A)), i < j → traces[i]? = some fired →
          ∀ inv ∈ fired, inv.observed_time < ts) := by
  induction calls with
  | nil =>
    intro w w1 q q1 traces _ hb hr
    simp only [EventQueue.run_calls] at hr
    have h1 := Prod.mk.inj (Except.ok.inj hr)
    have h2 := Prod.mk.inj h1.2
    left
    rw [← h2.1, ← h2.2]
    exact ⟨hb, by simp⟩
  | cons c calls ih =>
    intro w w1 q q1 traces hs hb hr
    cases c with
    | add_event ts0 f0 a0 =>
      obtain ⟨q2, traces1, hadd, hrest, htr⟩ := run_calls_add_event_inv hr
      obtain ⟨-, rfl⟩ := add_event_ok_inv hadd
      have hs2 := add_event_scan_strictly_ascending ts0 f0 a0 _ hs
      have hb2 := bucket_with_continues (add_event_scan_continues ts0 f0 a0 q.event_queue)
        hclosed hb
      subst htr
      rcases ih w w1 _ q1 traces1 hs2 hb2 hrest with ⟨hpend, hall⟩ | ⟨j, es, hes, hj, hall⟩
      · left
        refine ⟨hpend, ?_⟩
        intro i fired hi
        cases i with
        | zero =>
          simp only [List.getElem?_cons_zero, Option.some.injEq] at hi
          subst hi
          simp
        | succ i => exact hall i fired (by simpa using hi)
      · right
        refine ⟨j + 1, es, hes, by simpa using hj, ?_⟩
        intro i fired hij hi
        cases i with
        | zero =>
          simp only [List.getElem?_cons_zero, Option.some.injEq] at hi
          subst hi
          simp
        | succ i => exact hall i fired (by omega) (by simpa using hi)
    | proceed =>
      obtain ⟨w2, q2, fired0, traces1, hp, hrest, htr⟩ := run_calls_proceed_inv hr
      subst htr
      obtain ⟨hs2, hcase⟩ := proceed_bucket_with hs hp hclosed hb
      rcases hcase with ⟨es, hes, hf⟩ | ⟨hb2, hearly⟩
      · right
        exact ⟨0, es, hes, by simp [hf], fun i fired hi => absurd hi (Nat.not_lt_zero _)⟩
      · rcases ih w2 w1 q2 q1 traces1 hs2 hb2 hrest with ⟨hpend, hall⟩ | ⟨j, es, hes, hj, hall⟩
        · left
          refine ⟨hpend, ?_⟩
          intro i fired hi
          cases i with
          | zero =>
            simp only [List.getElem?_cons_zero, Option.some.injEq] at hi
            subst hi
            exact hearly
          | succ i => exact hall i fired (by simpa using hi)
        · right
          refine ⟨j + 1, es, hes, by simpa using hj, ?_⟩
          intro i fired hij hi
          cases i with
          | zero =>
            simp only [List.getElem?_cons_zero, Option.some.injEq] at hi
            subst hi
            exact hearly
          | succ i => exact hall i fired (by omega) (by simpa using hi)

/-! ## The firing order of the pending callbacks -/

theorem insert_behind_append (x : T × F × A) (s1 s2 : List (T × F × A))
    (h1 : ∀ y ∈ s1, y.1 ≤ x.1) : insert_behind x (s1 ++ s2) = s1 ++ insert_behind x s2 := by
  induction s1 with
  | nil => rfl
  | cons y s1 ih =>
    have hy : ¬ x.1 < y.1 := not_lt.mpr (h1 y (List.mem_cons_self _ _))
    have hrest := ih (fun z hz => h1 z (List.mem_cons_of_mem _ hz))
    simp only [List.cons_append, insert_behind, hy, if_false]
    exact congrArg (List.cons y) hrest

theorem insert_behind_of_lt (x : T × F × A) (s : List (T × F × A))
    (h : ∀ y ∈ s, x.1 < y.1) : insert_behind x s = x :: s := by
  cases s with
  | nil => rfl
  | cons y s => simp [insert_behind, h y (List.mem_cons_self _ _)]

theorem pending_events_cons (b : EventQueueEntry T F A) (l : List (EventQueueEntry T F A)) :
    pending_events (b :: l) =
      b.events.map (fun e => (b.time_stamp, e.fun_ptr, e.fun_arg)) ++ pending_events l := by
  simp [pending_events]

theorem pending_events_time_stamp {l : List (EventQueueEntry T F A)} {x : T × F × A}
    (hx : x ∈ pending_events l) : ∃ b ∈ l, b.time_stamp = x.1 := by
  simp only [pending_events, List.mem_flatMap, List.mem_map] at hx
  obtain ⟨b, hb, e, -, he⟩ := hx
  exact ⟨b, hb, by rw [← he]⟩

/-- On a strictly ascending bucket list the scan of add_event puts the new
callback behind every pending callback that is not later. -/
theorem pending_events_add_event_scan (ts : T) (f : F) (a : A)
    (l : List (EventQueueEntry T F A)) (hs : strictly_ascending l) :
    pending_events (EventQueue.add_event_scan ts f a l) =
      insert_behind (ts, f, a) (pending_events l) := by
  unfold strictly_ascending at hs
  induction l with
  | nil => simp [add_event_scan_nil, pending_events, insert_behind]
  | cons x l ih =>
    have hx := List.pairwise_cons.mp hs
    have hlater : ∀ t, t ≤ x.time_stamp → ∀ y ∈ pending_events l, t < y.1 := by
      intro t ht y hy
      obtain ⟨b, hb, hbt⟩ := pending_events_time_stamp hy
      exact lt_of_le_of_lt ht (hbt ▸ hx.1 b hb)
    rcases lt_trichotomy x.time_stamp ts with h | h | h
    · rw [add_event_scan_cons_lt ts f a x l h, pending_events_cons, pending_events_cons,
        ih hx.2, insert_behind_append]
      intro y hy
      obtain ⟨e, -, he⟩ := List.mem_map.mp hy
      rw [← he]
      exact le_of_lt h
    · rw [add_event_scan_cons_eq ts f a x l h, pending_events_cons, pending_events_cons,
        insert_behind_append, insert_behind_of_lt]
      · simp [h]
      · exact hlater ts (le_of_eq h.symm)
      · intro y hy
        obtain ⟨e, -, he⟩ := List.mem_map.mp hy
        rw [← he]
        exact le_of_eq h
    · rw [add_event_scan_cons_gt ts f a x l h, pending_events_cons, insert_behind_of_lt]
      · simp [pending_events]
      · intro y hy
        rw [pending_events_cons] at hy
        rcases List.mem_append.mp hy with m | m
        · obtain ⟨e, -, he⟩ := List.mem_map.mp m
          rw [← he]
          exact h
        · exact hlater ts (le_of_lt h) y m

/-- Putting a callback behind the not-later ones commutes with the insertion
step of the insertion sort. -/
theorem orderedInsert_insert_behind (x y : T × F × A) (s : List (T × F × A)) :
    List.orderedInsert (fun u v : T × F × A => u.1 ≤ v.1) y (insert_behind x s) =
      insert_behind x (List.orderedInsert (fun u v : T × F × A => u.1 ≤ v.1) y s) := by
  induction s with
  | nil =>
    by_cases hxy : x.1 < y.1
    · simp [insert_behind, List.orderedInsert, hxy, not_le.mpr hxy]
    · simp [insert_behind, List.orderedInsert, hxy, not_lt.mp hxy]
  | cons z s ih =>
    by_cases hxz : x.1 < z.1
    · by_cases hyx : y.1 ≤ x.1
      · have hyz : y.1 ≤ z.1 := le_trans hyx (le_of_lt hxz)
        simp [insert_behind, List.orderedInsert, hxz, hyx, hyz, not_lt.mpr hyx]
      · by_cases hyz : y.1 ≤ z.1
        · simp [insert_behind, List.orderedInsert, hxz, hyx, hyz, not_le.mp hyx]
        · simp [insert_behind, List.orderedInsert, hxz, hyx, hyz]
    · by_cases hyz : y.1 ≤ z.1
      · have hxy : ¬ x.1 < y.1 := not_lt.mpr (le_trans hyz (not_lt.mp hxz))
        simp [insert_behind, List.orderedInsert, hxz, hyz, hxy]
      · simp only [insert_behind, List.orderedInsert, hxz, hyz, if_false]
        rw [← ih]

theorem stable_sort_by_time_stamp_concat (evs : List (T × F × A)) (x : T × F × A) :
    stable_sort_by_time_stamp (evs ++ [x]) = insert_behind x (stable_sort_by_time_stamp evs) := by
  unfold stable_sort_by_time_stamp
  induction evs with
  | nil => rfl
  | cons y evs ih =>
    simp only [List.cons_append, List.insertionSort]
    rw [← orderedInsert_insert_behind]
    exact congrArg _ ih

/-- The pending callbacks after a sequence of add_event calls on a fresh queue
are the stably sorted calls. -/
theorem pending_events_add_events (calls : List (T × F × A)) :
    ∀ (done : List (T × F × A)) (q q1 : EventQueue T F A),
      strictly_ascending q.event_queue →
      pending_events q.event_queue = stable_sort_by_time_stamp done →
      q.add_events calls = .ok q1 →
      pending_events q1.event_queue = stable_sort_by_time_stamp (done ++ calls) := by
  induction calls with
  | nil =>
    intro done q q1 _ hp h
    simp only [EventQueue.add_events] at h
    rw [← Except.ok.inj h, List.append_nil]
    exact hp
  | cons c calls ih =>
    intro done q q1 hs hp h
    obtain ⟨ts, f, a⟩ := c
    simp only [EventQueue.add_events] at h
    cases hq2 : q.add_event ts f a with
    | error e => rw [hq2] at h; cases h
    | ok q2 =>
      rw [hq2] at h
      obtain ⟨-, rfl⟩ := add_event_ok_inv hq2
      have := ih (done ++ [(ts, f, a)]) _ q1
        (add_event_scan_strictly_ascending ts f a _ hs)
        (by
          show pending_events (EventQueue.add_event_scan ts f a q.event_queue) = _
          rw [pending_events_add_event_scan ts f a _ hs, hp, stable_sort_by_time_stamp_concat])
        h
      rw [this, List.append_assoc]
      rfl

/-! ## The driving loop -/

/-- With callbacks that make no add_event call, the driving loop, given at
least one unit of fuel for each bucket, empties the queue and fires the
pending callbacks in their order, each at the time stamp of its bucket. -/
theorem run_until_empty_quiet (h : Handler W T F A) (l : List (EventQueueEntry T F A)) :
    ∀ (fuel : Nat) (w : W) (c : T), l.length ≤ fuel →
      (∀ x ∈ pending_events l, ∀ w0 q0, (h x.2.1 x.2.2 w0 q0).2 = []) →
      ∃ w1 c1, EventQueue.run_until_empty h fuel w { current_time := c, event_queue := l } =
        .ok (some (w1, { current_time := c1, event_queue := [] },
          (pending_events l).map
            (fun x => { fun_ptr := x.2.1, fun_arg := x.2.2, observed_time := x.1 }))) := by
  induction l with
  | nil =>
    intro fuel w c _ _
    cases fuel <;> exact ⟨w, c, by simp [EventQueue.run_until_empty, EventQueue.empty,
      pending_events]⟩
  | cons b rest ih =>
    intro fuel w c hfuel hquiet
    cases fuel with
    | zero => simp at hfuel
    | succ fuel =>
      have hqb : ∀ e ∈ b.events, ∀ w0 q0, (h e.fun_ptr e.fun_arg w0 q0).2 = [] := by
        intro e he
        refine hquiet (b.time_stamp, e.fun_ptr, e.fun_arg) ?_
        rw [pending_events_cons]
        exact List.mem_append_left _ (List.mem_map.mpr ⟨e, he, rfl⟩)
      obtain ⟨w1, hp⟩ := proceed_quiet h w { current_time := c, event_queue := b :: rest }
        b rest rfl hqb
      obtain ⟨w2, c2, hrest⟩ := ih fuel w1 b.time_stamp
        (by simpa using hfuel)
        (fun x hx => hquiet x (by rw [pending_events_cons]; exact List.mem_append_right _ hx))
      refine ⟨w2, c2, ?_⟩
      simp only [EventQueue.run_until_empty, EventQueue.empty, List.isEmpty_cons,
        Bool.false_eq_true, if_false, hp, hrest, pending_events_cons, List.map_append,
        List.map_map]
      rfl

/-! ## The stable sort -/

theorem stable_sort_by_time_stamp_perm (evs : List (T × F × A)) :
    (stable_sort_by_time_stamp evs).Perm evs :=
  List.perm_insertionSort _ evs

theorem stable_sort_by_time_stamp_sorted (evs : List (T × F × A)) :
    (stable_sort_by_time_stamp evs).Pairwise (fun x y => x.1 ≤ y.1) :=
  @List.sorted_insertionSort (T × F × A) (fun x y => x.1 ≤ y.1) _
    ⟨fun x y => le_total x.1 y.1⟩ ⟨fun _ _ _ hxy hyz => le_trans hxy hyz⟩ evs

theorem orderedInsert_filter_time_stamp (t : T) (y : T × F × A) (s : List (T × F × A)) :
    (List.orderedInsert (fun u v : T × F × A => u.1 ≤ v.1) y s).filter (fun x => x.1 = t) =
      (y :: s).filter (fun x => x.1 = t) := by
  induction s with
  | nil => rfl
  | cons z s ih =>
    by_cases hyz : y.1 ≤ z.1
    · simp [List.orderedInsert, hyz]
    · have hne : z.1 ≠ y.1 := ne_of_lt (not_le.mp hyz)
      simp only [List.orderedInsert, hyz, if_false]
      by_cases hz : z.1 = t
      · have hy : y.1 ≠ t := fun hy => hne (hz.trans hy.symm)
        simp [List.filter_cons, hz, hy, ih]
      · simp [List.filter_cons, hz, ih]

/-- The stable sort keeps the callbacks of each time stamp in their order. -/
theorem stable_sort_by_time_stamp_filter (t : T) (evs : List (T × F × A)) :
    (stable_sort_by_time_stamp evs).filter (fun x => x.1 = t) =
      evs.filter (fun x => x.1 = t) := by
  unfold stable_sort_by_time_stamp
  induction evs with
  | nil => rfl
  | cons y evs ih =>
    simp only [List.insertionSort]
    rw [orderedInsert_filter_time_stamp, List.filter_cons, List.filter_cons, ih]

theorem add_event_scan_length_le (ts : T) (f : F) (a : A) (l : List (EventQueueEntry T F A)) :
    (EventQueue.add_event_scan ts f a l).length ≤ l.length + 1 := by
  induction l with
  | nil => simp [add_event_scan_nil]
  | cons x l ih =>
    rcases lt_trichotomy x.time_stamp ts with h | h | h
    · rw [add_event_scan_cons_lt ts f a x l h]
      simpa using ih
    · rw [add_event_scan_cons_eq ts f a x l h]
      simp
    · rw [add_event_scan_cons_gt ts f a x l h]
      simp

theorem add_events_length_le (calls : List (T × F × A)) :
    ∀ (q q1 : EventQueue T F A), q.add_events calls = .ok q1 →
      q1.event_queue.length ≤ q.event_queue.length + calls.length := by
  induction calls with
  | nil =>
    intro q q1 h
    simp only [EventQueue.add_events] at h
    rw [← Except.ok.inj h]
    simp
  | cons c calls ih =>
    intro q q1 h
    obtain ⟨ts, f, a⟩ := c
    simp only [EventQueue.add_events] at h
    cases hq2 : q.add_event ts f a with
    | error e => rw [hq2] at h; cases h
    | ok q2 =>
      rw [hq2] at h
      obtain ⟨-, rfl⟩ := add_event_ok_inv hq2
      have h1 := ih _ q1 h
      have h2 := add_event_scan_length_le ts f a q.event_queue
      simp only [List.length_cons] at h1 ⊢
      omega

/-! ## Re-entrant add_event calls -/

theorem add_event_scans_nil (l : List (EventQueueEntry T F A)) :
    EventQueue.add_event_scans ([] : List (T × F × A)) l = l := rfl

theorem add_event_scans_cons (c : T × F × A) (calls : List (T × F × A))
    (l : List (EventQueueEntry T F A)) :
    EventQueue.add_event_scans (c :: calls) l =
      EventQueue.add_event_scans calls (EventQueue.add_event_scan c.1 c.2.1 c.2.2 l) := rfl

theorem add_event_scans_append (c1 c2 : List (T × F × A)) (l : List (EventQueueEntry T F A)) :
    EventQueue.add_event_scans (c1 ++ c2) l =
      EventQueue.add_event_scans c2 (EventQueue.add_event_scans c1 l) := by
  simp [EventQueue.add_event_scans, List.foldl_append]

/-- A bucket that is not later than `t` stays at the front, as it is, under
scans with time stamps later than `t`. -/
theorem add_event_scans_front (calls : List (T × F × A)) :
    ∀ (t : T) (b : EventQueueEntry T F A) (rest : List (EventQueueEntry T F A)),
      b.time_stamp ≤ t → (∀ c ∈ calls, t < c.1) →
      EventQueue.add_event_scans calls (b :: rest) =
        b :: EventQueue.add_event_scans calls rest := by
  induction calls with
  | nil => intro t b rest _ _; rfl
  | cons c calls ih =>
    intro t b rest hb hc
    rw [add_event_scans_cons, add_event_scans_cons,
      add_event_scan_cons_lt c.1 c.2.1 c.2.2 b rest
        (lt_of_le_of_lt hb (hc c (List.mem_cons_self _ _)))]
    exact ih t b _ hb (fun c1 h1 => hc c1 (List.mem_cons_of_mem _ h1))

/-- A sequence of add_event calls returns exactly when every time stamp is
later than the current time, and then the bucket list is the old one after the
scans of the calls. -/
theorem add_events_ok_iff (calls : List (T × F × A)) :
    ∀ (q q1 : EventQueue T F A), q.add_events calls = .ok q1 ↔
      (∀ c ∈ calls, q.current_time < c.1) ∧
        q1 = { q with event_queue := EventQueue.add_event_scans calls q.event_queue } := by
  induction calls with
  | nil =>
    intro q q1
    simp only [EventQueue.add_events, add_event_scans_nil]
    constructor
    · intro h
      exact ⟨fun c hc => absurd hc (List.not_mem_nil _), (Except.ok.inj h).symm⟩
    · rintro ⟨-, rfl⟩
      rfl
  | cons c calls ih =>
    intro q q1
    obtain ⟨ts, f, a⟩ := c
    simp only [EventQueue.add_events]
    by_cases hc : EventQueueEntry.compare_time_stamp q.current_time ts < 0
    · rw [add_event_ok q ts f a hc]
      simp only
      rw [ih]
      have hlt := (compare_time_stamp_neg_iff _ _).mp hc
      constructor
      · rintro ⟨h1, h2⟩
        refine ⟨?_, h2⟩
        intro c1 hc1
        rcases List.mem_cons.mp hc1 with e | m
        · rw [e]; exact hlt
        · exact h1 c1 m
      · rintro ⟨h1, h2⟩
        exact ⟨fun c1 hc1 => h1 c1 (List.mem_cons_of_mem _ hc1), h2⟩
    · rw [add_event_error q ts f a hc]
      simp only
      constructor
      · intro h; cases h
      · rintro ⟨h1, -⟩
        exact absurd ((compare_time_stamp_neg_iff _ _).mpr (h1 _ (List.mem_cons_self _ _))) hc

/-- What a returning run of the callbacks did, exactly: every add_event call
the callbacks made has a time stamp later than the current time, and the
bucket list is the old one after the scans of those calls. -/
theorem run_events_ok_exact (h : Handler W T F A) (es : List (Event F A)) :
    ∀ (w w1 : W) (q q1 : EventQueue T F A) (fired : List (Invocation T F A)),
      EventQueueEntry.run_events h es w q = .ok (w1, q1, fired) →
      (∀ c ∈ EventQueueEntry.requests_made h es w q, q.current_time < c.1) ∧
        q1 = { q with event_queue :=
          EventQueue.add_event_scans (EventQueueEntry.requests_made h es w q) q.event_queue } := by
  induction es with
  | nil =>
    intro w w1 q q1 fired hr
    simp only [EventQueueEntry.run_events] at hr
    have h1 := Prod.mk.inj (Except.ok.inj hr)
    have h2 := Prod.mk.inj h1.2
    exact ⟨fun c hc => absurd hc (List.not_mem_nil _), h2.1.symm⟩
  | cons e es ih =>
    intro w w1 q q1 fired hr
    simp only [EventQueueEntry.run_events] at hr
    cases he : e.run h w q with
    | error err => rw [he] at hr; cases hr
    | ok r =>
      obtain ⟨w2, q2⟩ := r
      rw [he] at hr
      simp only at hr
      cases hrest : EventQueueEntry.run_events h es w2 q2 with
      | error err => rw [hrest] at hr; cases hr
      | ok r2 =>
        obtain ⟨w3, q3, fired3⟩ := r2
        rw [hrest] at hr
        simp only at hr
        have h1 := Prod.mk.inj (Except.ok.inj hr)
        have h2 := Prod.mk.inj h1.2
        obtain ⟨hv2, hq2⟩ := (add_events_ok_iff _ q q2).mp (event_run_ok_inv he)
        obtain ⟨hv3, hq3⟩ := ih w2 w3 q2 q3 fired3 hrest
        have hreq : EventQueueEntry.requests_made h (e :: es) w q =
            (h e.fun_ptr e.fun_arg w q).2 ++ EventQueueEntry.requests_made h es w2 q2 := by
          simp only [EventQueueEntry.requests_made, he]
        rw [hreq]
        constructor
        · intro c hc
          rcases List.mem_append.mp hc with m | m
          · exact hv2 c m
          · have := hv3 c m
            rw [hq2] at this
            exact this
        · rw [← h2.1, hq3, add_event_scans_append]
          rw [hq2]

/-- When every add_event call the callbacks make has a time stamp later than
the current time, the run of the callbacks returns. -/
theorem run_events_ok_of_valid (h : Handler W T F A) (es : List (Event F A)) :
    ∀ (w : W) (q : EventQueue T F A),
      (∀ c ∈ EventQueueEntry.requests_made h es w q, q.current_time < c.1) →
      ∃ w1 q1 fired, EventQueueEntry.run_events h es w q = .ok (w1, q1, fired) := by
  induction es with
  | nil => intro w q _; exact ⟨w, q, [], rfl⟩
  | cons e es ih =>
    intro w q hv
    have hfirst : ∀ c ∈ (h e.fun_ptr e.fun_arg w q).2, q.current_time < c.1 := by
      intro c hc
      exact hv c (by simp only [EventQueueEntry.requests_made]; exact List.mem_append_left _ hc)
    have hadd := (add_events_ok_iff (h e.fun_ptr e.fun_arg w q).2 q _).mpr ⟨hfirst, rfl⟩
    have he : e.run h w q = .ok ((h e.fun_ptr e.fun_arg w q).1,
        { q with event_queue :=
          EventQueue.add_event_scans (h e.fun_ptr e.fun_arg w q).2 q.event_queue }) := by
      simp only [Event.run, hadd]
    have hrest : ∀ c ∈ EventQueueEntry.requests_made h es (h e.fun_ptr e.fun_arg w q).1
        { q with event_queue :=
          EventQueue.add_event_scans (h e.fun_ptr e.fun_arg w q).2 q.event_queue },
        q.current_time < c.1 := by
      intro c hc
      refine hv c ?_
      simp only [EventQueueEntry.requests_made, he]
      exact List.mem_append_right _ hc
    obtain ⟨w1, q1, fired, h1⟩ := ih _ _ hrest
    refine ⟨w1, q1, e.invocation q.current_time :: fired, ?_⟩
    simp only [EventQueueEntry.run_events, he, h1]
    rfl

theorem add_event_scans_strictly_ascending (calls : List (T × F × A)) :
    ∀ (l : List (EventQueueEntry T F A)), strictly_ascending l →
      strictly_ascending (EventQueue.add_event_scans calls l) := by
  induction calls with
  | nil => intro l hl; exact hl
  | cons c calls ih =>
    intro l hl
    rw [add_event_scans_cons]
    exact ih _ (add_event_scan_strictly_ascending c.1 c.2.1 c.2.2 l hl)

theorem add_event_scans_continues (calls : List (T × F × A)) :
    ∀ (l : List (EventQueueEntry T F A)), continues l (EventQueue.add_event_scans calls l) := by
  induction calls with
  | nil => intro l; exact continues_refl l
  | cons c calls ih =>
    intro l
    rw [add_event_scans_cons]
    exact continues_trans (add_event_scan_continues c.1 c.2.1 c.2.2 l) (ih _)

/-- After the scans of a sequence of add_event calls every call has its
callback in a bucket with its time stamp. -/
theorem add_event_scans_bucket_with (calls : List (T × F × A)) :
    ∀ (l : List (EventQueueEntry T F A)), ∀ c ∈ calls,
      bucket_with (EventQueue.add_event_scans calls l) c.1
        (fun es => ({ fun_ptr := c.2.1, fun_arg := c.2.2 } : Event F A) ∈ es) := by
  induction calls with
  | nil => intro l c hc; exact absurd hc (List.not_mem_nil _)
  | cons c0 calls ih =>
    intro l c hc
    rw [add_event_scans_cons]
    rcases List.mem_cons.mp hc with e | m
    · rw [e]
      refine bucket_with_continues (add_event_scans_continues calls _)
        (fun es more hp => List.mem_append_left _ hp) ?_
      obtain ⟨b, hb, hbt, es0, hes⟩ := add_event_scan_bucket_with c0.1 c0.2.1 c0.2.2 l
      exact ⟨b, hb, hbt, by rw [hes]; simp⟩
    · exact ih _ c m

/-- The scan leaves no bucket without callbacks when there was none before. -/
theorem add_event_scan_events_ne_nil (ts : T) (f : F) (a : A)
    (l : List (EventQueueEntry T F A)) (hl : ∀ b ∈ l, b.events ≠ []) :
    ∀ b ∈ EventQueue.add_event_scan ts f a l, b.events ≠ [] := by
  induction l with
  | nil =>
    intro b hb
    rw [add_event_scan_nil] at hb
    simp only [List.mem_singleton] at hb
    rw [hb]
    simp
  | cons x l ih =>
    intro b hb
    have hx := hl x (List.mem_cons_self _ _)
    have hrest : ∀ b ∈ l, b.events ≠ [] := fun b hb => hl b (List.mem_cons_of_mem _ hb)
    rcases lt_trichotomy x.time_stamp ts with h | h | h
    · rw [add_event_scan_cons_lt ts f a x l h] at hb
      rcases List.mem_cons.mp hb with e | m
      · rw [e]; exact hx
      · exact ih hrest b m
    · rw [add_event_scan_cons_eq ts f a x l h] at hb
      rcases List.mem_cons.mp hb with e | m
      · rw [e]; simp
      · exact hrest b m
    · rw [add_event_scan_cons_gt ts f a x l h] at hb
      rcases List.mem_cons.mp hb with e | m
      · rw [e]; simp
      · exact hl b m

theorem add_event_scans_events_ne_nil (calls : List (T × F × A)) :
    ∀ (l : List (EventQueueEntry T F A)), (∀ b ∈ l, b.events ≠ []) →
      ∀ b ∈ EventQueue.add_event_scans calls l, b.events ≠ [] := by
  induction calls with
  | nil => intro l hl; exact hl
  | cons c calls ih =>
    intro l hl
    rw [add_event_scans_cons]
    exact ih _ (add_event_scan_events_ne_nil c.1 c.2.1 c.2.2 l hl)

/-- What a returning call of proceed did, exactly: the callbacks of the front
bucket B ran on the queue with B still at its front, every add_event call they
made has a time stamp later than that of B, and the bucket list left is the
list behind B after the scans of those calls. -/
theorem proceed_ok_exact {h : Handler W T F A} {w w1 : W} {q q1 : EventQueue T F A}
    {fired : List (Invocation T F A)} {B : EventQueueEntry T F A}
    {R : List (EventQueueEntry T F A)}
    (hq : q.event_queue = B :: R) (hp : q.proceed h w = .ok (w1, q1, fired)) :
    (∀ c ∈ EventQueueEntry.requests_made h B.events w
        { current_time := B.time_stamp, event_queue := B :: R }, B.time_stamp < c.1) ∧
    EventQueueEntry.run_events h B.events w
        { current_time := B.time_stamp, event_queue := B :: R } =
      .ok (w1, { current_time := B.time_stamp,
                 event_queue := B :: EventQueue.add_event_scans
                   (EventQueueEntry.requests_made h B.events w
                     { current_time := B.time_stamp, event_queue := B :: R }) R }, fired) ∧
    q1 = { current_time := B.time_stamp,
           event_queue := EventQueue.add_event_scans
             (EventQueueEntry.requests_made h B.events w
               { current_time := B.time_stamp, event_queue := B :: R }) R } := by
  obtain ⟨c, l⟩ := q
  simp only at hq
  subst hq
  simp only [EventQueue.proceed] at hp
  cases hr : EventQueueEntry.run_events h B.events w
      { current_time := B.get_time_stamp, event_queue := B :: R } with
  | error err => rw [hr] at hp; cases hp
  | ok r =>
    obtain ⟨w2, q2, fired2⟩ := r
    rw [hr] at hp
    simp only at hp
    have h1 := Prod.mk.inj (Except.ok.inj hp)
    have h2 := Prod.mk.inj h1.2
    obtain ⟨hv, hq2⟩ := run_events_ok_exact h B.events w w2 _ q2 fired2 hr
    have hfront := add_event_scans_front _ B.time_stamp B R (le_refl _) hv
    simp only [EventQueueEntry.get_time_stamp] at hq2 hv hfront ⊢
    rw [hfront] at hq2
    refine ⟨hv, ?_, ?_⟩
    · rw [← h1.1, ← h2.2, ← hq2]
      exact hr
    · rw [← h2.1, hq2]
      rfl

/-- When every add_event call the callbacks of the front bucket make has a time
stamp later than that of the bucket, proceed returns. -/
theorem proceed_ok_of_valid (h : Handler W T F A) (w : W) (q : EventQueue T F A)
    (B : EventQueueEntry T F A) (R : List (EventQueueEntry T F A))
    (hq : q.event_queue = B :: R)
    (hv : ∀ c ∈ EventQueueEntry.requests_made h B.events w
        { current_time := B.time_stamp, event_queue := B :: R }, B.time_stamp < c.1) :
    ∃ w1 q1 fired, q.proceed h w = .ok (w1, q1, fired) := by
  obtain ⟨c, l⟩ := q
  simp only at hq
  subst hq
  obtain ⟨w1, q1, fired, h1⟩ := run_events_ok_of_valid h B.events w
    { current_time := B.time_stamp, event_queue := B :: R } hv
  refine ⟨w1, q1.pop_front, fired, ?_⟩
  simp only [EventQueue.proceed, EventQueueEntry.get_time_stamp, h1]

/-! ## The frame of add_event and the order of two calls -/

/-- The scans of two add_event calls with different time stamps give the same
bucket list in either order. -/
theorem add_event_scan_comm (t1 t2 : T) (f1 f2 : F) (a1 a2 : A) (hne : t1 ≠ t2)
    (l : List (EventQueueEntry T F A)) :
    EventQueue.add_event_scan t2 f2 a2 (EventQueue.add_event_scan t1 f1 a1 l) =
      EventQueue.add_event_scan t1 f1 a1 (EventQueue.add_event_scan t2 f2 a2 l) := by
  induction l with
  | nil =>
    rw [add_event_scan_nil, add_event_scan_nil]
    rcases lt_or_gt_of_ne hne with h | h
    · rw [add_event_scan_cons_lt t2 f2 a2 _ _ h, add_event_scan_nil,
        add_event_scan_cons_gt t1 f1 a1 _ _ h]
    · rw [add_event_scan_cons_gt t2 f2 a2 _ _ h, add_event_scan_cons_lt t1 f1 a1 _ _ h,
        add_event_scan_nil]
  | cons x l ih =>
    rcases lt_trichotomy x.time_stamp t1 with h1 | h1 | h1
    · rw [add_event_scan_cons_lt t1 f1 a1 x l h1]
      rcases lt_trichotomy x.time_stamp t2 with h2 | h2 | h2
      · rw [add_event_scan_cons_lt t2 f2 a2 x _ h2, add_event_scan_cons_lt t2 f2 a2 x l h2,
          add_event_scan_cons_lt t1 f1 a1 x _ h1, ih]
      · rw [add_event_scan_cons_eq t2 f2 a2 x _ h2, add_event_scan_cons_eq t2 f2 a2 x l h2,
          add_event_scan_cons_lt t1 f1 a1
          ({ time_stamp := x.time_stamp, events := x.events ++ [{ fun_ptr := f2, fun_arg := a2 }] } :
            EventQueueEntry T F A) l h1]
      · rw [add_event_scan_cons_gt t2 f2 a2 x _ h2, add_event_scan_cons_gt t2 f2 a2 x l h2,
          add_event_scan_cons_lt t1 f1 a1 _ _ (lt_trans h2 h1),
          add_event_scan_cons_lt t1 f1 a1 x l h1]
    · rw [add_event_scan_cons_eq t1 f1 a1 x l h1]
      rcases lt_trichotomy x.time_stamp t2 with h2 | h2 | h2
      · rw [add_event_scan_cons_lt t2 f2 a2
          ({ time_stamp := x.time_stamp, events := x.events ++ [{ fun_ptr := f1, fun_arg := a1 }] } :
            EventQueueEntry T F A) l h2, add_event_scan_cons_lt t2 f2 a2 x l h2,
          add_event_scan_cons_eq t1 f1 a1 x _ h1]
      · exact absurd (h1.symm.trans h2) hne
      · rw [add_event_scan_cons_gt t2 f2 a2
          ({ time_stamp := x.time_stamp, events := x.events ++ [{ fun_ptr := f1, fun_arg := a1 }] } :
            EventQueueEntry T F A) l h2, add_event_scan_cons_gt t2 f2 a2 x l h2,
          add_event_scan_cons_lt t1 f1 a1 _ _ (h1 ▸ h2),
          add_event_scan_cons_eq t1 f1 a1 x l h1]
    · rw [add_event_scan_cons_gt t1 f1 a1 x l h1]
      rcases lt_trichotomy x.time_stamp t2 with h2 | h2 | h2
      · rw [add_event_scan_cons_lt t2 f2 a2 _ _ (lt_trans h1 h2),
          add_event_scan_cons_lt t2 f2 a2 x l h2, add_event_scan_cons_gt t1 f1 a1 x _ h1]
      · rw [add_event_scan_cons_lt t2 f2 a2 _ _ (h2 ▸ h1),
          add_event_scan_cons_eq t2 f2 a2 x l h2, add_event_scan_cons_gt t1 f1 a1
          ({ time_stamp := x.time_stamp, events := x.events ++ [{ fun_ptr := f2, fun_arg := a2 }] } :
            EventQueueEntry T F A) l h1]
      · rw [add_event_scan_cons_gt t2 f2 a2 x l h2]
        rcases lt_or_gt_of_ne hne with h | h
        · rw [add_event_scan_cons_lt t2 f2 a2 _ _ h, add_event_scan_cons_gt t2 f2 a2 x l h2,
            add_event_scan_cons_gt t1 f1 a1 _ _ h]
        · rw [add_event_scan_cons_gt t2 f2 a2 _ _ h, add_event_scan_cons_lt t1 f1 a1 _ _ h,
            add_event_scan_cons_gt t1 f1 a1 x l h1]

/-- The scan changes the bucket list at one place only: it puts a new bucket
with the single callback between two parts of the list, or it adds the callback
at the end of one bucket with the time stamp of the call. -/
theorem add_event_scan_shape (ts : T) (f : F) (a : A) (l : List (EventQueueEntry T F A)) :
    ∃ pre post, l = pre ++ post ∧
      (EventQueue.add_event_scan ts f a l =
          pre ++ { time_stamp := ts, events := [{ fun_ptr := f, fun_arg := a }] } :: post ∨
        ∃ b post1, post = b :: post1 ∧ b.time_stamp = ts ∧
          EventQueue.add_event_scan ts f a l =
            pre ++ { time_stamp := b.time_stamp,
                     events := b.events ++ [{ fun_ptr := f, fun_arg := a }] } :: post1) := by
  induction l with
  | nil => exact ⟨[], [], rfl, Or.inl rfl⟩
  | cons x l ih =>
    rcases lt_trichotomy x.time_stamp ts with h | h | h
    · obtain ⟨pre, post, hl, hcase⟩ := ih
      refine ⟨x :: pre, post, by rw [hl, List.cons_append], ?_⟩
      rw [add_event_scan_cons_lt ts f a x l h]
      rcases hcase with h1 | ⟨b, post1, hp, hb, h1⟩
      · left; rw [h1, List.cons_append]
      · right; exact ⟨b, post1, hp, hb, by rw [h1, List.cons_append]⟩
    · exact ⟨[], x :: l, rfl, Or.inr ⟨x, l, rfl, h, add_event_scan_cons_eq ts f a x l h⟩⟩
    · exact ⟨[], x :: l, rfl, Or.inl (add_event_scan_cons_gt ts f a x l h)⟩

theorem pending_events_append (l1 l2 : List (EventQueueEntry T F A)) :
    pending_events (l1 ++ l2) = pending_events l1 ++ pending_events l2 := by
  simp [pending_events]

/-- The scan puts the new callback at one place among the pending callbacks
and leaves the others as they are, in their order. -/
theorem pending_events_add_event_scan_shape (ts : T) (f : F) (a : A)
    (l : List (EventQueueEntry T F A)) :
    ∃ s1 s2, pending_events l = s1 ++ s2 ∧
      pending_events (EventQueue.add_event_scan ts f a l) = s1 ++ (ts, f, a) :: s2 := by
  obtain ⟨pre, post, hl, hcase⟩ := add_event_scan_shape ts f a l
  rcases hcase with h1 | ⟨b, post1, hp, hb, h1⟩
  · refine ⟨pending_events pre, pending_events post, by rw [hl, pending_events_append], ?_⟩
    rw [h1, pending_events_append, pending_events_cons]
    rfl
  · refine ⟨pending_events pre ++ b.events.map (fun e => (b.time_stamp, e.fun_ptr, e.fun_arg)),
      pending_events post1, ?_, ?_⟩
    · rw [hl, hp, pending_events_append, pending_events_cons, List.append_assoc]
    · rw [h1, pending_events_append, pending_events_cons]
      simp [hb]

/-- In every state reached from a fresh queue no bucket is without
callbacks. -/
theorem reachable_events_ne_nil [Zero T] {h : Handler W T F A} {q : EventQueue T F A}
    (hq : Reachable h q) : ∀ b ∈ q.event_queue, b.events ≠ [] := by
  induction hq with
  | create => intro b hb; exact absurd hb (List.not_mem_nil _)
  | add_event q q1 ts f a _ hadd ih =>
    obtain ⟨-, rfl⟩ := add_event_ok_inv hadd
    exact add_event_scan_events_ne_nil ts f a _ ih
  | proceed q q1 w w1 fired _ hp ih =>
    cases hl : q.event_queue with
    | nil => simp [EventQueue.proceed, hl] at hp
    | cons B R =>
      obtain ⟨-, -, hq1⟩ := proceed_ok_exact hl hp
      rw [hq1]
      exact add_event_scans_events_ne_nil _ R
        (fun b hb => ih b (hl ▸ List.mem_cons_of_mem _ hb))

/-- Every bucket after the scans of a sequence of add_event calls carries the
time stamp of one of the calls or of a bucket that was there before. -/
theorem add_event_scans_time_stamp_mem (calls : List (T × F × A)) :
    ∀ (l : List (EventQueueEntry T F A)), ∀ x ∈ EventQueue.add_event_scans calls l,
      (∃ c ∈ calls, c.1 = x.time_stamp) ∨ ∃ x0 ∈ l, x0.time_stamp = x.time_stamp := by
  induction calls with
  | nil => intro l x hx; exact Or.inr ⟨x, hx, rfl⟩
  | cons c calls ih =>
    intro l x hx
    rw [add_event_scans_cons] at hx
    rcases ih _ x hx with ⟨c1, hc1, ht⟩ | ⟨x0, hx0, ht⟩
    · exact Or.inl ⟨c1, List.mem_cons_of_mem _ hc1, ht⟩
    · rcases add_event_scan_time_stamp_mem c.1 c.2.1 c.2.2 l x0 hx0 with h1 | ⟨x1, hx1, h1⟩
      · exact Or.inl ⟨c, List.mem_cons_self _ _, by rw [← ht, h1]⟩
      · exact Or.inr ⟨x1, hx1, h1.trans ht⟩

/-- In a strictly ascending bucket list the buckets before a bucket are
earlier, the buckets between two buckets lie between them, and the buckets
behind a bucket are later. -/
theorem strictly_ascending_between {pre mid post : List (EventQueueEntry T F A)}
    {b1 b2 : EventQueueEntry T F A}
    (hs : strictly_ascending (pre ++ b1 :: (mid ++ b2 :: post))) :
    (∀ x ∈ pre, x.time_stamp < b1.time_stamp) ∧
    (∀ x ∈ mid, b1.time_stamp < x.time_stamp ∧ x.time_stamp < b2.time_stamp) ∧
    (∀ x ∈ post, b2.time_stamp < x.time_stamp) := by
  unfold strictly_ascending at hs
  have h1 := List.pairwise_append.mp hs
  have h2 := List.pairwise_cons.mp h1.2.1
  have h3 := List.pairwise_append.mp h2.2
  have h4 := List.pairwise_cons.mp h3.2.1
  refine ⟨fun x hx => h1.2.2 x hx b1 (List.mem_cons_self _ _), ?_, fun x hx => h4.1 x hx⟩
  intro x hx
  exact ⟨h2.1 x (List.mem_append_left _ hx), h3.2.2 x hx b2 (List.mem_cons_self _ _)⟩

/-! ## Properties of the specification -/

/-- C1: add_event preserves invariant I1.  On a queue whose bucket list is
strictly ascending by time stamp, a call of add_event with a time stamp that
compares later than the current time returns, and the bucket list is strictly
ascending again.  Consequently, after each call (the first n calls, for every
n) of a sequence of such calls made on a freshly created queue, the bucket list
is strictly ascending. -/
theorem add_event_preserves_strictly_ascending [Zero T]
    (q : EventQueue T F A) (time_stamp : T) (fun_ptr : F) (fun_arg : A)
    (calls : List (T × F × A)) (n : Nat)
    (hq : strictly_ascending q.event_queue)
    (ht : EventQueueEntry.compare_time_stamp q.current_time time_stamp < 0)
    (hcalls : ∀ c ∈ calls, EventQueueEntry.compare_time_stamp
      (EventQueue.create : EventQueue T F A).current_time c.1 < 0) :
    (∃ q1, q.add_event time_stamp fun_ptr fun_arg = .ok q1 ∧
      strictly_ascending q1.event_queue) ∧
    (∃ q2, (EventQueue.create : EventQueue T F A).add_events (calls.take n) = .ok q2 ∧
      strictly_ascending q2.event_queue) := by
  constructor
  · exact ⟨_, add_event_ok q time_stamp fun_ptr fun_arg ht,
      add_event_scan_strictly_ascending time_stamp fun_ptr fun_arg _ hq⟩
  · obtain ⟨q2, h2, _, hs⟩ := add_events_ok (calls.take n) (EventQueue.create : EventQueue T F A)
      (fun c hc => hcalls c (List.mem_of_mem_take hc))
    exact ⟨q2, h2, hs List.Pairwise.nil⟩

/-- C1 at a concrete input: a bucket at 15 joins the buckets at 10 and 20, and
the calls (10, 20, 10) are made on a fresh queue. -/
theorem add_event_preserves_strictly_ascending_witness :
    (∃ q1, (⟨0, [⟨10, [⟨1, 0⟩]⟩, ⟨20, [⟨2, 0⟩]⟩]⟩ : EventQueue Nat Nat Nat).add_event 15 3 0 = .ok q1 ∧
      strictly_ascending q1.event_queue) ∧
    (∃ q2, (EventQueue.create : EventQueue Nat Nat Nat).add_events
        ([(10, 1, 0), (20, 2, 0), (10, 3, 0)].take 3) = .ok q2 ∧
      strictly_ascending q2.event_queue) :=
  add_event_preserves_strictly_ascending
    (⟨0, [⟨10, [⟨1, 0⟩]⟩, ⟨20, [⟨2, 0⟩]⟩]⟩ : EventQueue Nat Nat Nat) 15 3 0
    [(10, 1, 0), (20, 2, 0), (10, 3, 0)] 3 (by decide) (by decide) (by decide)

/-- C2: on a queue reached from a fresh one, let callback C1 = (f1, a1) be
enqueued at t1 and callback C2 = (f2, a2) at t2, with t1 earlier than t2 and
both later than the current time, in either order.  Both calls return.  C1 is
then in a bucket with time stamp t1 and C2 in another bucket, with time stamp
t2, that stands behind it in the bucket list.  And in every returning sequence
of further calls on the queue, a call that fires C2 at t2 comes strictly after
a call that fires C1 at t1. -/
theorem earlier_time_stamp_fires_first [Zero T] (h : Handler W T F A) (q : EventQueue T F A)
    (t1 t2 : T) (f1 : F) (a1 : A) (f2 : F) (a2 : A) (enqueues : List (T × F × A))
    (hq : Reachable h q) (hlt : t1 < t2)
    (h1 : EventQueueEntry.compare_time_stamp q.current_time t1 < 0)
    (h2 : EventQueueEntry.compare_time_stamp q.current_time t2 < 0)
    (horder : enqueues = [(t1, f1, a1), (t2, f2, a2)] ∨
      enqueues = [(t2, f2, a2), (t1, f1, a1)]) :
    ∃ qa, q.add_events enqueues = .ok qa ∧
      (∃ pre b1 mid b2 post, qa.event_queue = pre ++ b1 :: (mid ++ b2 :: post) ∧
        b1.time_stamp = t1 ∧ ({ fun_ptr := f1, fun_arg := a1 } : Event F A) ∈ b1.events ∧
        b2.time_stamp = t2 ∧ ({ fun_ptr := f2, fun_arg := a2 } : Event F A) ∈ b2.events) ∧
      (∀ (calls : List (Call T F A)) (w w1 : W) (q1 : EventQueue T F A)
          (traces : List (List (Invocation T F A))),
        qa.run_calls h calls w = .ok (w1, q1, traces) →
        ∀ (j : Nat) (fired : List (Invocation T F A)), traces[j]? = some fired →
          ({ fun_ptr := f2, fun_arg := a2, observed_time := t2 } : Invocation T F A) ∈ fired →
          ∃ (i : Nat) (fired1 : List (Invocation T F A)), i < j ∧ traces[i]? = some fired1 ∧
            ({ fun_ptr := f1, fun_arg := a1, observed_time := t1 } : Invocation T F A) ∈
              fired1) := by
  have hwf := reachable_well_formed hq
  have hvalid : ∀ c ∈ enqueues, EventQueueEntry.compare_time_stamp q.current_time c.1 < 0 := by
    intro c hc
    rcases horder with e | e <;> rw [e] at hc <;> simp at hc <;> rcases hc with e1 | e1 <;>
      rw [e1] <;> assumption
  have hm1 : (t1, f1, a1) ∈ enqueues := by rcases horder with e | e <;> rw [e] <;> simp
  have hm2 : (t2, f2, a2) ∈ enqueues := by rcases horder with e | e <;> rw [e] <;> simp
  obtain ⟨qa, hqa, -, hsort⟩ := add_events_ok enqueues q hvalid
  have hsa := hsort hwf.1
  obtain ⟨b1, hb1, hbt1, he1⟩ := add_events_bucket_with enqueues q qa hqa _ hm1
  obtain ⟨b2, hb2, hbt2, he2⟩ := add_events_bucket_with enqueues q qa hqa _ hm2
  simp only at hbt1 hbt2 he1 he2
  refine ⟨qa, hqa, ?_, ?_⟩
  · obtain ⟨pre, mid, post, hl⟩ :=
      strictly_ascending_order hsa hb1 hb2 (by rw [hbt1, hbt2]; exact hlt)
    exact ⟨pre, b1, mid, b2, post, hl, hbt1, he1, hbt2, he2⟩
  · intro calls w w1 q1 traces hr j fired hj hin
    have hclosed : ∀ es more : List (Event F A),
        ({ fun_ptr := f1, fun_arg := a1 } : Event F A) ∈ es →
        ({ fun_ptr := f1, fun_arg := a1 } : Event F A) ∈ es ++ more :=
      fun es more hp => List.mem_append_left _ hp
    rcases run_calls_bucket_with h t1 _ hclosed calls w w1 qa q1 traces hsa
        ⟨b1, hb1, hbt1, he1⟩ hr with ⟨-, hall⟩ | ⟨j0, es, hes, hj0, hall⟩
    · exact absurd (hall j fired hj _ hin) (not_lt_of_lt hlt)
    · rcases lt_trichotomy j0 j with hlt0 | heq | hgt
      · refine ⟨j0, _, hlt0, hj0, ?_⟩
        exact List.mem_map.mpr ⟨_, hes, rfl⟩
      · rw [heq, hj] at hj0
        rw [Option.some.inj hj0] at hin
        obtain ⟨e, -, he⟩ := List.mem_map.mp hin
        have : t1 = t2 := congrArg Invocation.observed_time he
        exact absurd this (ne_of_lt hlt)
      · exact absurd (hall j fired hgt hj _ hin) (not_lt_of_lt hlt)

/-- C2 at a concrete input: on the queue with current time 10 and buckets at 15
and 20, callback 6 is enqueued at 17 and then callback 5 at 12. -/
theorem earlier_time_stamp_fires_first_witness :
    (∃ qa, reached_queue.add_events [(17, 6, 0), (12, 5, 0)] = .ok qa ∧
      (∃ pre b1 mid b2 post, qa.event_queue = pre ++ b1 :: (mid ++ b2 :: post) ∧
        b1.time_stamp = 12 ∧ (⟨5, 0⟩ : Event Nat Nat) ∈ b1.events ∧
        b2.time_stamp = 17 ∧ (⟨6, 0⟩ : Event Nat Nat) ∈ b2.events) ∧
      (∀ (calls : List (Call Nat Nat Nat)) (w w1 : Unit) (q1 : EventQueue Nat Nat Nat)
          (traces : List (List (Invocation Nat Nat Nat))),
        qa.run_calls quiet_handler calls w = .ok (w1, q1, traces) →
        ∀ (j : Nat) (fired : List (Invocation Nat Nat Nat)), traces[j]? = some fired →
          (⟨6, 0, 17⟩ : Invocation Nat Nat Nat) ∈ fired →
          ∃ (i : Nat) (fired1 : List (Invocation Nat Nat Nat)), i < j ∧
            traces[i]? = some fired1 ∧ (⟨5, 0, 12⟩ : Invocation Nat Nat Nat) ∈ fired1)) ∧
    reached_queue.add_events [(17, 6, 0), (12, 5, 0)] =
      .ok ⟨10, [⟨12, [⟨5, 0⟩]⟩, ⟨15, [⟨3, 0⟩]⟩, ⟨17, [⟨6, 0⟩]⟩, ⟨20, [⟨2, 0⟩]⟩]⟩ ∧
    (⟨10, [⟨12, [⟨5, 0⟩]⟩, ⟨15, [⟨3, 0⟩]⟩, ⟨17, [⟨6, 0⟩]⟩, ⟨20, [⟨2, 0⟩]⟩]⟩ :
        EventQueue Nat Nat Nat).run_calls quiet_handler [.proceed, .proceed, .proceed] () =
      .ok ((), ⟨17, [⟨20, [⟨2, 0⟩]⟩]⟩, [[⟨5, 0, 12⟩], [⟨3, 0, 15⟩], [⟨6, 0, 17⟩]]) :=
  ⟨earlier_time_stamp_fires_first quiet_handler reached_queue 12 17 5 0 6 0
    [(17, 6, 0), (12, 5, 0)]
    (Reachable.add_event ⟨10, [⟨20, [⟨2, 0⟩]⟩]⟩ _ 15 3 0
      (Reachable.proceed ⟨0, [⟨10, [⟨1, 0⟩]⟩, ⟨20, [⟨2, 0⟩]⟩]⟩ _ () () [⟨1, 0, 10⟩]
        (Reachable.add_event ⟨0, [⟨10, [⟨1, 0⟩]⟩]⟩ _ 20 2 0
          (Reachable.add_event EventQueue.create _ 10 1 0 Reachable.create rfl) rfl) rfl) rfl)
    (by decide) (by decide) (by decide) (Or.inr rfl), rfl, rfl⟩

/-- C3: on a strictly ascending bucket list, let callback C1 = (f1, a1) and
then callback C2 = (f2, a2) be enqueued at the same time stamp ts, later than
the current time, with any add_event calls with time stamps later than the
current time made between the two.  All calls return, and one bucket, with
time stamp ts, holds C1 and, behind it, C2 as its last callback.  In every
returning sequence of further calls that bucket is still pending with C1
before C2, or one single call of proceed has fired both, C1 before C2, and
every callback fired by that call saw ts as the current time. -/
theorem same_time_stamp_fires_in_order (h : Handler W T F A) (q : EventQueue T F A)
    (ts : T) (f1 : F) (a1 : A) (f2 : F) (a2 : A) (between : List (T × F × A))
    (hs : strictly_ascending q.event_queue)
    (ht : EventQueueEntry.compare_time_stamp q.current_time ts < 0)
    (hbetween : ∀ c ∈ between, EventQueueEntry.compare_time_stamp q.current_time c.1 < 0) :
    ∃ qa, q.add_events ((ts, f1, a1) :: between ++ [(ts, f2, a2)]) = .ok qa ∧
      (∃ pre b post es1 es2, qa.event_queue = pre ++ b :: post ∧ b.time_stamp = ts ∧
        b.events = es1 ++ { fun_ptr := f1, fun_arg := a1 } :: es2 ++
          [{ fun_ptr := f2, fun_arg := a2 }]) ∧
      (∀ (calls : List (Call T F A)) (w w1 : W) (q1 : EventQueue T F A)
          (traces : List (List (Invocation T F A))),
        qa.run_calls h calls w = .ok (w1, q1, traces) →
        (∃ b ∈ q1.event_queue, b.time_stamp = ts ∧ ∃ es1 es2 es3,
          b.events = es1 ++ { fun_ptr := f1, fun_arg := a1 } :: es2 ++
            { fun_ptr := f2, fun_arg := a2 } :: es3) ∨
        (∃ (j : Nat) (fired xs ys zs : List (Invocation T F A)), traces[j]? = some fired ∧
          fired = xs ++ { fun_ptr := f1, fun_arg := a1, observed_time := ts } :: ys ++
            { fun_ptr := f2, fun_arg := a2, observed_time := ts } :: zs ∧
          ∀ inv ∈ fired, inv.observed_time = ts)) := by
  -- the first call
  have hvalid1 : ∀ c ∈ (ts, f1, a1) :: between,
      EventQueueEntry.compare_time_stamp q.current_time c.1 < 0 := by
    intro c hc
    rcases List.mem_cons.mp hc with e | m
    · rw [e]; exact ht
    · exact hbetween c m
  obtain ⟨qm, hqm, hcm, hsm⟩ := add_events_ok ((ts, f1, a1) :: between) q hvalid1
  obtain ⟨b, hb, hbt, hbe⟩ := add_events_bucket_with _ q qm hqm (ts, f1, a1)
    (List.mem_cons_self _ _)
  simp only at hbt hbe
  -- the last call
  obtain ⟨pre, post, hl, hscan⟩ := add_event_scan_at_bucket ts f2 a2 qm.event_queue b
    (hsm hs) hb hbt
  obtain ⟨es1, es2, hes⟩ := List.append_of_mem hbe
  have hlast : qm.add_events [(ts, f2, a2)] =
      .ok { qm with event_queue := EventQueue.add_event_scan ts f2 a2 qm.event_queue } := by
    simp only [EventQueue.add_events, add_event_ok qm ts f2 a2 (hcm ▸ ht)]
  have hall : q.add_events ((ts, f1, a1) :: between ++ [(ts, f2, a2)]) =
      .ok { qm with event_queue := EventQueue.add_event_scan ts f2 a2 qm.event_queue } := by
    rw [← hlast]
    exact add_events_append ((ts, f1, a1) :: between) [(ts, f2, a2)] q qm hqm
  have hpat : ∀ es more : List (Event F A),
      (∃ es1 es2 es3, es = es1 ++ ({ fun_ptr := f1, fun_arg := a1 } : Event F A) :: es2 ++
        { fun_ptr := f2, fun_arg := a2 } :: es3) →
      ∃ es1 es2 es3, es ++ more = es1 ++ ({ fun_ptr := f1, fun_arg := a1 } : Event F A) ::
        es2 ++ { fun_ptr := f2, fun_arg := a2 } :: es3 := by
    rintro es more ⟨x, y, z, hxyz⟩
    exact ⟨x, y, z ++ more, by rw [hxyz]; simp⟩
  refine ⟨_, hall, ⟨pre, _, post, es1, es2, hscan, hbt, by simp [hes]⟩, ?_⟩
  intro calls w w1 q1 traces hr
  have hsa : strictly_ascending (EventQueue.add_event_scan ts f2 a2 qm.event_queue) :=
    add_event_scan_strictly_ascending ts f2 a2 _ (hsm hs)
  have hbw : bucket_with (EventQueue.add_event_scan ts f2 a2 qm.event_queue) ts
      (fun es => ∃ es1 es2 es3, es = es1 ++ ({ fun_ptr := f1, fun_arg := a1 } : Event F A) ::
        es2 ++ { fun_ptr := f2, fun_arg := a2 } :: es3) := by
    refine ⟨{ time_stamp := b.time_stamp,
              events := b.events ++ [{ fun_ptr := f2, fun_arg := a2 }] },
      ?_, hbt, es1, es2, [], ?_⟩
    · rw [hscan]; exact List.mem_append_right _ (List.mem_cons_self _ _)
    · simp [hes]
  rcases run_calls_bucket_with h ts _ hpat calls w w1 _ q1 traces hsa hbw hr with
    ⟨hpend, -⟩ | ⟨j, es, ⟨x, y, z, hxyz⟩, hj, -⟩
  · left
    exact hpend
  · right
    refine ⟨j, _, x.map (fun e => e.invocation ts), y.map (fun e => e.invocation ts),
      z.map (fun e => e.invocation ts), hj, ?_, ?_⟩
    · rw [hxyz]
      simp [Event.invocation]
    · intro inv hinv
      obtain ⟨e, -, he⟩ := List.mem_map.mp hinv
      rw [← he]
      rfl

/-- C3 at a concrete input: on the queue with buckets at 10 and 20, callback 3
is enqueued at 15, then callback 4 at 12, then callback 5 at 15. -/
theorem same_time_stamp_fires_in_order_witness :
    (∃ qa, (⟨0, [⟨10, [⟨1, 0⟩]⟩, ⟨20, [⟨2, 0⟩]⟩]⟩ : EventQueue Nat Nat Nat).add_events
        ((15, 3, 0) :: [(12, 4, 0)] ++ [(15, 5, 0)]) = .ok qa ∧
      (∃ pre b post es1 es2, qa.event_queue = pre ++ b :: post ∧ b.time_stamp = 15 ∧
        b.events = es1 ++ ⟨3, 0⟩ :: es2 ++ [⟨5, 0⟩]) ∧
      (∀ (calls : List (Call Nat Nat Nat)) (w w1 : Unit) (q1 : EventQueue Nat Nat Nat)
          (traces : List (List (Invocation Nat Nat Nat))),
        qa.run_calls quiet_handler calls w = .ok (w1, q1, traces) →
        (∃ b ∈ q1.event_queue, b.time_stamp = 15 ∧ ∃ es1 es2 es3,
          b.events = es1 ++ ⟨3, 0⟩ :: es2 ++ ⟨5, 0⟩ :: es3) ∨
        (∃ (j : Nat) (fired xs ys zs : List (Invocation Nat Nat Nat)),
          traces[j]? = some fired ∧
          fired = xs ++ ⟨3, 0, 15⟩ :: ys ++ ⟨5, 0, 15⟩ :: zs ∧
          ∀ inv ∈ fired, inv.observed_time = 15))) ∧
    (⟨0, [⟨10, [⟨1, 0⟩]⟩, ⟨12, [⟨4, 0⟩]⟩, ⟨15, [⟨3, 0⟩, ⟨5, 0⟩]⟩, ⟨20, [⟨2, 0⟩]⟩]⟩ :
        EventQueue Nat Nat Nat).run_calls quiet_handler [.proceed, .proceed, .proceed] () =
      .ok ((), ⟨15, [⟨20, [⟨2, 0⟩]⟩]⟩,
        [[⟨1, 0, 10⟩], [⟨4, 0, 12⟩], [⟨3, 0, 15⟩, ⟨5, 0, 15⟩]]) :=
  ⟨same_time_stamp_fires_in_order quiet_handler
    (⟨0, [⟨10, [⟨1, 0⟩]⟩, ⟨20, [⟨2, 0⟩]⟩]⟩ : EventQueue Nat Nat Nat) 15 3 0 5 0 [(12, 4, 0)]
    (by decide) (by decide) (by decide), rfl⟩

/-- C4: the current time never decreases.  In every state reached from a fresh
queue by returning calls of add_event and proceed, a returning call of
add_event leaves get_current_time as it is, and a returning call of proceed
sets it to a time stamp that is not smaller than its value before the call. -/
theorem current_time_never_decreases [Zero T] (h : Handler W T F A) (q : EventQueue T F A)
    (hq : Reachable h q) :
    (∀ (ts : T) (f : F) (a : A) (q1 : EventQueue T F A), q.add_event ts f a = .ok q1 →
      q1.get_current_time = q.get_current_time) ∧
    (∀ (w w1 : W) (q1 : EventQueue T F A) (fired : List (Invocation T F A)),
      q.proceed h w = .ok (w1, q1, fired) →
      q.get_current_time ≤ q1.get_current_time) := by
  have hwf := reachable_well_formed hq
  constructor
  · intro ts f a q1 hadd
    obtain ⟨-, rfl⟩ := add_event_ok_inv hadd
    rfl
  · intro w w1 q1 fired hp
    cases hl : q.event_queue with
    | nil => simp [EventQueue.proceed, hl] at hp
    | cons b rest =>
      obtain ⟨hc, -, -⟩ := proceed_ok_inv hl hp
      simp only [EventQueue.get_current_time, hc]
      exact le_of_lt (hwf.2 b (hl ▸ List.mem_cons_self _ _))

/-- C4 at a concrete input: the queue reached by add_event at 10 and at 20, a
first proceed, and add_event at 15; its current time is 10, add_event at 12
keeps it and proceed moves it to 15. -/
theorem current_time_never_decreases_witness :
    Reachable quiet_handler reached_queue ∧
    (∀ q1, reached_queue.add_event 12 4 0 = .ok q1 →
      q1.get_current_time = reached_queue.get_current_time) ∧
    (∀ w1 q1 fired, reached_queue.proceed quiet_handler () = .ok (w1, q1, fired) →
      reached_queue.get_current_time ≤ q1.get_current_time) ∧
    reached_queue.proceed quiet_handler () =
      .ok ((), ⟨15, [⟨20, [⟨2, 0⟩]⟩]⟩, [⟨3, 0, 15⟩]) :=
  have hr : Reachable quiet_handler reached_queue :=
    Reachable.add_event ⟨10, [⟨20, [⟨2, 0⟩]⟩]⟩ _ 15 3 0
      (Reachable.proceed ⟨0, [⟨10, [⟨1, 0⟩]⟩, ⟨20, [⟨2, 0⟩]⟩]⟩ _ () () [⟨1, 0, 10⟩]
        (Reachable.add_event ⟨0, [⟨10, [⟨1, 0⟩]⟩]⟩ _ 20 2 0
          (Reachable.add_event EventQueue.create _ 10 1 0 Reachable.create rfl) rfl) rfl) rfl
  ⟨hr,
    fun q1 => (current_time_never_decreases quiet_handler reached_queue hr).1 12 4 0 q1,
    fun w1 q1 fired =>
      (current_time_never_decreases quiet_handler reached_queue hr).2 () w1 q1 fired,
    rfl⟩

/-- C5: add_event faults exactly when the time stamp does not compare later
than the current time, that is when compare_time_stamp(current_time,
time_stamp) is not negative; the fault is the failed assertion, raised on the
queue as it was before the call, so no bucket has been created or modified.
In particular a fresh queue (time 0) accepts a callback at 5 and holds the
single bucket at 5; once proceed has fired that bucket the current time is 5,
and add_event at 5 faults, as it does on every queue whose current time is 5. -/
theorem add_event_faults_iff (q : EventQueue T F A) (time_stamp : T) (fun_ptr : F) (fun_arg : A)
    (h : Handler W Nat F A) (w : W) (l : List (EventQueueEntry Nat F A)) :
    ((∃ err, q.add_event time_stamp fun_ptr fun_arg = .error err) ↔
      EventQueueEntry.compare_time_stamp q.current_time time_stamp ≥ 0) ∧
    (q.add_event time_stamp fun_ptr fun_arg = .error (.assertion_failed q) ↔
      EventQueueEntry.compare_time_stamp q.current_time time_stamp ≥ 0) ∧
    ((∃ q1, q.add_event time_stamp fun_ptr fun_arg = .ok q1) ↔
      EventQueueEntry.compare_time_stamp q.current_time time_stamp < 0) ∧
    (EventQueue.create : EventQueue Nat F A).add_event 5 fun_ptr fun_arg =
      .ok ⟨0, [⟨5, [⟨fun_ptr, fun_arg⟩]⟩]⟩ ∧
    (∀ w1 q1 fired,
      (⟨0, [⟨5, [⟨fun_ptr, fun_arg⟩]⟩]⟩ : EventQueue Nat F A).proceed h w = .ok (w1, q1, fired) →
      q1.get_current_time = 5 ∧
        q1.add_event 5 fun_ptr fun_arg = .error (.assertion_failed q1)) ∧
    (⟨5, l⟩ : EventQueue Nat F A).add_event 5 fun_ptr fun_arg =
      .error (.assertion_failed ⟨5, l⟩) := by
  refine ⟨?_, ?_, ?_, rfl, ?_, rfl⟩
  · by_cases hc : EventQueueEntry.compare_time_stamp q.current_time time_stamp < 0
    · rw [add_event_ok q _ _ _ hc]
      simp [hc]
    · rw [add_event_error q _ _ _ hc]
      simp [not_lt.mp hc]
  · by_cases hc : EventQueueEntry.compare_time_stamp q.current_time time_stamp < 0
    · rw [add_event_ok q _ _ _ hc]
      simp [hc]
    · rw [add_event_error q _ _ _ hc]
      simp [not_lt.mp hc]
  · by_cases hc : EventQueueEntry.compare_time_stamp q.current_time time_stamp < 0
    · rw [add_event_ok q _ _ _ hc]
      simp [hc]
    · rw [add_event_error q _ _ _ hc]
      simp [hc]
  · intro w1 q1 fired hp
    obtain ⟨hc, -, -⟩ := proceed_ok_inv rfl hp
    simp only at hc
    refine ⟨hc, add_event_error q1 5 _ _ ?_⟩
    rw [compare_time_stamp_neg_iff, hc]
    exact lt_irrefl 5

/-- C5 at a concrete input: with callbacks that do not enqueue, the fresh queue
accepts a callback at 5, proceed fires it, and a second callback at 5 faults. -/
theorem add_event_faults_iff_witness :
    (EventQueue.create : EventQueue Nat Nat Nat).add_event 5 1 0 = .ok ⟨0, [⟨5, [⟨1, 0⟩]⟩]⟩ ∧
    (⟨0, [⟨5, [⟨1, 0⟩]⟩]⟩ : EventQueue Nat Nat Nat).proceed quiet_handler () =
      .ok ((), ⟨5, []⟩, [⟨1, 0, 5⟩]) ∧
    (⟨5, []⟩ : EventQueue Nat Nat Nat).add_event 5 1 0 = .error (.assertion_failed ⟨5, []⟩) :=
  ⟨(add_event_faults_iff (EventQueue.create : EventQueue Nat Nat Nat) 5 1 0
      quiet_handler () []).2.2.2.1,
    rfl,
    ((add_event_faults_iff (EventQueue.create : EventQueue Nat Nat Nat) 5 1 0
      quiet_handler () []).2.2.2.2.1 () ⟨5, []⟩ [⟨1, 0, 5⟩] rfl).2⟩

/-- C6: the postcondition of proceed.  On a queue whose bucket list is the
bucket B followed by the buckets R, a returning call of proceed leaves the
current time at the time stamp of B and has invoked the callbacks of B once
each, in insertion order, each with its stored argument and each seeing the
time stamp of B as the current time; when the bucket list was strictly
ascending, neither B nor any bucket with the time stamp of B occurs in the
bucket list afterwards.  When the callbacks of B make no add_event call,
proceed returns and the bucket list is exactly R. -/
theorem proceed_postcondition (h : Handler W T F A) (w : W) (q : EventQueue T F A)
    (B : EventQueueEntry T F A) (R : List (EventQueueEntry T F A))
    (hq : q.event_queue = B :: R) :
    (∀ (w1 : W) (q1 : EventQueue T F A) (fired : List (Invocation T F A)),
      q.proceed h w = .ok (w1, q1, fired) →
      q1.get_current_time = B.time_stamp ∧
      fired = B.events.map
        (fun e => { fun_ptr := e.fun_ptr, fun_arg := e.fun_arg,
                    observed_time := B.time_stamp }) ∧
      (strictly_ascending q.event_queue →
        B ∉ q1.event_queue ∧ ∀ b ∈ q1.event_queue, b.time_stamp ≠ B.time_stamp)) ∧
    ((∀ e ∈ B.events, ∀ w0 q0, (h e.fun_ptr e.fun_arg w0 q0).2 = []) →
      ∃ w1 fired, q.proceed h w =
        .ok (w1, { current_time := B.time_stamp, event_queue := R }, fired)) := by
  constructor
  · intro w1 q1 fired hp
    obtain ⟨hc, hf, -, -, hm⟩ := proceed_ok_inv hq hp
    refine ⟨hc, hf, ?_⟩
    intro hs
    rw [hq] at hs
    have hB := List.pairwise_cons.mp hs
    have hlater : ∀ b ∈ q1.event_queue, B.time_stamp < b.time_stamp := by
      intro b hb
      rcases hm b hb with ⟨b0, hb0, ht⟩ | hlt
      · exact ht ▸ hB.1 b0 hb0
      · exact hlt
    exact ⟨fun hmem => lt_irrefl _ (hlater B hmem), fun b hb => ne_of_gt (hlater b hb)⟩
  · intro hquiet
    obtain ⟨w1, h1⟩ := proceed_quiet h w q B R hq hquiet
    exact ⟨w1, _, h1⟩

/-- C6 at a concrete input: proceed on the buckets at 10 (callbacks 1 and 3)
and 20 (callback 2), with callbacks that make no add_event call; and proceed
on the buckets at 10 (callback 7) and 20 with a callback 7 that enqueues
callback 8 at 15 while it runs. -/
theorem proceed_postcondition_witness :
    ((∀ w1 q1 fired,
      (⟨0, [⟨10, [⟨1, 0⟩, ⟨3, 0⟩]⟩, ⟨20, [⟨2, 0⟩]⟩]⟩ : EventQueue Nat Nat Nat).proceed
        quiet_handler () = .ok (w1, q1, fired) →
      q1.get_current_time = 10 ∧
      fired = [⟨1, 0, 10⟩, ⟨3, 0, 10⟩] ∧
      (strictly_ascending
          (⟨0, [⟨10, [⟨1, 0⟩, ⟨3, 0⟩]⟩, ⟨20, [⟨2, 0⟩]⟩]⟩ : EventQueue Nat Nat Nat).event_queue →
        (⟨10, [⟨1, 0⟩, ⟨3, 0⟩]⟩ : EventQueueEntry Nat Nat Nat) ∉ q1.event_queue ∧
        ∀ b ∈ q1.event_queue, b.time_stamp ≠ 10)) ∧
    ((∀ e ∈ [(⟨1, 0⟩ : Event Nat Nat), ⟨3, 0⟩], ∀ w0 q0,
        (quiet_handler e.fun_ptr e.fun_arg w0 q0).2 = []) →
      ∃ w1 fired,
        (⟨0, [⟨10, [⟨1, 0⟩, ⟨3, 0⟩]⟩, ⟨20, [⟨2, 0⟩]⟩]⟩ : EventQueue Nat Nat Nat).proceed
          quiet_handler () = .ok (w1, ⟨10, [⟨20, [⟨2, 0⟩]⟩]⟩, fired))) ∧
    (⟨0, [⟨10, [⟨1, 0⟩, ⟨3, 0⟩]⟩, ⟨20, [⟨2, 0⟩]⟩]⟩ : EventQueue Nat Nat Nat).proceed
      quiet_handler () = .ok ((), ⟨10, [⟨20, [⟨2, 0⟩]⟩]⟩, [⟨1, 0, 10⟩, ⟨3, 0, 10⟩]) ∧
    (⟨0, [⟨10, [⟨7, 0⟩]⟩, ⟨20, [⟨2, 0⟩]⟩]⟩ : EventQueue Nat Nat Nat).proceed
      rescheduling_handler () =
        .ok ((), ⟨10, [⟨15, [⟨8, 0⟩]⟩, ⟨20, [⟨2, 0⟩]⟩]⟩, [⟨7, 0, 10⟩]) :=
  ⟨proceed_postcondition quiet_handler ()
    (⟨0, [⟨10, [⟨1, 0⟩, ⟨3, 0⟩]⟩, ⟨20, [⟨2, 0⟩]⟩]⟩ : EventQueue Nat Nat Nat)
    ⟨10, [⟨1, 0⟩, ⟨3, 0⟩]⟩ [⟨20, [⟨2, 0⟩]⟩] rfl, rfl, rfl⟩

/-- C7, as the code behaves: proceed makes no check of its own.  A call of
proceed ends in the access to the front of an empty bucket list, which is
undefined behaviour, exactly when the queue is empty; such a call is never
answered by a failed assertion.  On a queue for which empty() is false the
front bucket exists and the only faults are failed assertions of add_event
calls made by the callbacks. -/
theorem proceed_on_empty_is_unchecked (h : Handler W T F A) (w : W) (q : EventQueue T F A) :
    (q.proceed h w = .error .undefined_front ↔ q.empty = true) ∧
    (q.empty = true → ∀ s, q.proceed h w ≠ .error (.assertion_failed s)) ∧
    (q.empty = false → ∀ err, q.proceed h w = .error err → ∃ s, err = .assertion_failed s) := by
  obtain ⟨c, l⟩ := q
  cases l with
  | nil =>
    refine ⟨by simp [EventQueue.proceed, EventQueue.empty], ?_, by simp [EventQueue.empty]⟩
    intro _ s hs
    simp [EventQueue.proceed] at hs
  | cons b rest =>
    have key : ∀ err, EventQueue.proceed h w ⟨c, b :: rest⟩ = .error err →
        ∃ s, err = .assertion_failed s := by
      intro err hp
      simp only [EventQueue.proceed] at hp
      cases hr : EventQueueEntry.run_events h b.events w
          { current_time := b.get_time_stamp, event_queue := b :: rest } with
      | error err2 =>
        rw [hr] at hp
        obtain ⟨s, hs⟩ := run_events_error_inv h _ _ _ _ hr
        exact ⟨s, by rw [← Except.error.inj hp, hs]⟩
      | ok r => rw [hr] at hp; cases hp
    refine ⟨?_, by simp [EventQueue.empty], fun _ => key⟩
    constructor
    · intro hp
      obtain ⟨s, hs⟩ := key _ hp
      cases hs
    · intro he
      simp [EventQueue.empty] at he

/-- C7 at a concrete input: proceed on the fresh, empty queue. -/
theorem proceed_on_empty_is_unchecked_witness :
    (EventQueue.create : EventQueue Nat Nat Nat).proceed quiet_handler () =
      .error .undefined_front :=
  (proceed_on_empty_is_unchecked quiet_handler ()
    (EventQueue.create : EventQueue Nat Nat Nat)).1.mpr rfl

/-- C7, the claim as stated fails: proceed on the fresh, empty queue is not
answered by a failed assertion, the one detected fault of this code; it runs
into the access to the front of the empty list. -/
theorem proceed_on_empty_not_detected :
    (EventQueue.create : EventQueue Nat Nat Nat).empty = true ∧
    ¬ (∃ s, (EventQueue.create : EventQueue Nat Nat Nat).proceed quiet_handler () =
      .error (.assertion_failed s)) ∧
    (EventQueue.create : EventQueue Nat Nat Nat).proceed quiet_handler () =
      .error .undefined_front := by
  refine ⟨rfl, ?_, rfl⟩
  rintro ⟨s, hs⟩
  cases hs

/-- C8: coalescing.  On a strictly ascending bucket list that holds a bucket b
with the time stamp of the call (a time stamp later than the current time),
add_event returns and creates no bucket: the bucket list is the old one with
(f, arg) added at the end of the callbacks of b.  The current time, the number
of buckets, the time stamps of the buckets, and every other bucket are as they
were. -/
theorem add_event_coalesces (q : EventQueue T F A) (time_stamp : T) (fun_ptr : F) (fun_arg : A)
    (b : EventQueueEntry T F A)
    (hs : strictly_ascending q.event_queue)
    (hb : b ∈ q.event_queue) (hbt : b.time_stamp = time_stamp)
    (ht : EventQueueEntry.compare_time_stamp q.current_time time_stamp < 0) :
    ∃ pre post q1, q.event_queue = pre ++ b :: post ∧
      q.add_event time_stamp fun_ptr fun_arg = .ok q1 ∧
      q1.event_queue =
        pre ++ { time_stamp := b.time_stamp,
                 events := b.events ++ [{ fun_ptr := fun_ptr, fun_arg := fun_arg }] } :: post ∧
      q1.current_time = q.current_time ∧
      q1.event_queue.length = q.event_queue.length ∧
      q1.event_queue.map (fun x => x.time_stamp) = q.event_queue.map (fun x => x.time_stamp) := by
  obtain ⟨pre, post, hl⟩ := List.append_of_mem hb
  have hpre : ∀ x ∈ pre, x.time_stamp < time_stamp := by
    intro x hx
    unfold strictly_ascending at hs
    rw [hl] at hs
    have := (List.pairwise_append.mp hs).2.2 x hx b (List.mem_cons_self _ _)
    exact hbt ▸ this
  have hscan : EventQueue.add_event_scan time_stamp fun_ptr fun_arg q.event_queue =
      pre ++ { time_stamp := b.time_stamp,
               events := b.events ++ [{ fun_ptr := fun_ptr, fun_arg := fun_arg }] } :: post := by
    rw [hl, add_event_scan_append _ _ _ pre _ hpre, add_event_scan_cons_eq _ _ _ b post hbt]
  refine ⟨pre, post, _, hl, add_event_ok q _ _ _ ht, hscan, rfl, ?_, ?_⟩
  · simp only [hscan]
    rw [hl]
    simp only [List.length_append, List.length_cons]
  · simp only [hscan]
    rw [hl]
    simp only [List.map_append, List.map_cons]

/-- C8 at a concrete input: a third callback at 10 joins the bucket at 10. -/
theorem add_event_coalesces_witness :
    ∃ pre post q1,
      [(⟨10, [⟨1, 0⟩]⟩ : EventQueueEntry Nat Nat Nat), ⟨20, [⟨2, 0⟩]⟩] = pre ++ ⟨10, [⟨1, 0⟩]⟩ :: post ∧
      (⟨0, [⟨10, [⟨1, 0⟩]⟩, ⟨20, [⟨2, 0⟩]⟩]⟩ : EventQueue Nat Nat Nat).add_event 10 3 0 = .ok q1 ∧
      q1.event_queue = pre ++ ⟨10, [⟨1, 0⟩] ++ [⟨3, 0⟩]⟩ :: post ∧
      q1.current_time = 0 ∧
      q1.event_queue.length = 2 ∧
      q1.event_queue.map (fun x => x.time_stamp) = [10, 20] :=
  add_event_coalesces (⟨0, [⟨10, [⟨1, 0⟩]⟩, ⟨20, [⟨2, 0⟩]⟩]⟩ : EventQueue Nat Nat Nat) 10 3 0
    ⟨10, [⟨1, 0⟩]⟩ (by decide) (by decide) rfl (by decide)

/-- C9: insertion of a new bucket.  On a strictly ascending bucket list that
holds no bucket with the time stamp of the call (a time stamp later than the
current time), add_event returns and the bucket list has one bucket more: the
old list splits into the buckets earlier than the time stamp and the buckets
later than it, and the new bucket, with that time stamp and the single
callback (f, arg), stands between the two parts, so immediately before the
first later bucket, or at the end when there is none.  The old buckets are as
they were, in the same order. -/
theorem add_event_inserts_new_bucket (q : EventQueue T F A) (time_stamp : T) (fun_ptr : F)
    (fun_arg : A)
    (hs : strictly_ascending q.event_queue)
    (hno : ∀ b ∈ q.event_queue, b.time_stamp ≠ time_stamp)
    (ht : EventQueueEntry.compare_time_stamp q.current_time time_stamp < 0) :
    ∃ pre post q1, q.event_queue = pre ++ post ∧
      (∀ b ∈ pre, b.time_stamp < time_stamp) ∧ (∀ b ∈ post, time_stamp < b.time_stamp) ∧
      q.add_event time_stamp fun_ptr fun_arg = .ok q1 ∧
      q1.event_queue =
        pre ++ { time_stamp := time_stamp,
                 events := [{ fun_ptr := fun_ptr, fun_arg := fun_arg }] } :: post ∧
      q1.current_time = q.current_time ∧
      q1.event_queue.length = q.event_queue.length + 1 := by
  obtain ⟨pre, post, hl, hpre, htail, hhead⟩ := strictly_ascending_split hs time_stamp
  have hpost : ∀ b ∈ post, time_stamp < b.time_stamp := by
    intro b hb
    cases post with
    | nil => exact absurd hb (List.not_mem_nil _)
    | cons x post =>
      rcases List.mem_cons.mp hb with e | m
      · have hx : time_stamp ≤ x.time_stamp := hhead x (by simp)
        have hne : x.time_stamp ≠ time_stamp :=
          hno x (by rw [hl]; exact List.mem_append_right _ (List.mem_cons_self _ _))
        rw [e]
        exact lt_of_le_of_ne hx (Ne.symm hne)
      · exact htail b (by simpa using m)
  have hscan : EventQueue.add_event_scan time_stamp fun_ptr fun_arg q.event_queue =
      pre ++ { time_stamp := time_stamp,
               events := [{ fun_ptr := fun_ptr, fun_arg := fun_arg }] } :: post := by
    rw [hl, add_event_scan_append _ _ _ pre _ hpre]
    cases post with
    | nil => rw [add_event_scan_nil]
    | cons x post =>
      rw [add_event_scan_cons_gt _ _ _ x post (hpost x (List.mem_cons_self _ _))]
  refine ⟨pre, post, _, hl, hpre, hpost, add_event_ok q _ _ _ ht, hscan, rfl, ?_⟩
  simp only [hscan]
  rw [hl]
  simp only [List.length_append, List.length_cons]
  omega

/-- C9 at a concrete input: a bucket at 15 goes between the buckets at 10 and
at 20. -/
theorem add_event_inserts_new_bucket_witness :
    ∃ pre post q1,
      [(⟨10, [⟨1, 0⟩]⟩ : EventQueueEntry Nat Nat Nat), ⟨20, [⟨2, 0⟩]⟩] = pre ++ post ∧
      (∀ b ∈ pre, b.time_stamp < 15) ∧ (∀ b ∈ post, 15 < b.time_stamp) ∧
      (⟨0, [⟨10, [⟨1, 0⟩]⟩, ⟨20, [⟨2, 0⟩]⟩]⟩ : EventQueue Nat Nat Nat).add_event 15 3 0 = .ok q1 ∧
      q1.event_queue = pre ++ ⟨15, [⟨3, 0⟩]⟩ :: post ∧
      q1.current_time = 0 ∧
      q1.event_queue.length = 2 + 1 :=
  add_event_inserts_new_bucket
    (⟨0, [⟨10, [⟨1, 0⟩]⟩, ⟨20, [⟨2, 0⟩]⟩]⟩ : EventQueue Nat Nat Nat) 15 3 0
    (by decide) (by decide) (by decide)

/-- C10: no event is lost, duplicated or misordered.  Let a list of events
(time stamp, callback, argument), all with time stamps later than the time of
a fresh queue and with callbacks that make no add_event call, be enqueued in
list order on a fresh queue.  Every add_event call returns, and the driving
loop, which calls proceed until empty() is true, returns with an empty queue
(given one unit of fuel for each event).  The sequence of invocations it made
is the list of events stably sorted by time stamp, each callback seeing its
own time stamp as the current time.  So it is a permutation of the enqueued
events (each fired exactly once), it is ascending in time, and the events of
each time stamp are fired in the order in which they were enqueued. -/
theorem no_event_lost [Zero T] (h : Handler W T F A) (evs : List (T × F × A)) (w : W)
    (fuel : Nat)
    (hquiet : ∀ e ∈ evs, ∀ w0 q0, (h e.2.1 e.2.2 w0 q0).2 = [])
    (hevs : ∀ e ∈ evs, EventQueueEntry.compare_time_stamp
      (EventQueue.create : EventQueue T F A).current_time e.1 < 0)
    (hfuel : evs.length ≤ fuel) :
    ∃ q1 w1 q2 fired,
      (EventQueue.create : EventQueue T F A).add_events evs = .ok q1 ∧
      q1.run_until_empty h fuel w = .ok (some (w1, q2, fired)) ∧
      q2.empty = true ∧
      fired = (stable_sort_by_time_stamp evs).map
        (fun x => { fun_ptr := x.2.1, fun_arg := x.2.2, observed_time := x.1 }) ∧
      fired.Perm
        (evs.map (fun x => { fun_ptr := x.2.1, fun_arg := x.2.2, observed_time := x.1 })) ∧
      fired.Pairwise (fun x y => x.observed_time ≤ y.observed_time) ∧
      ∀ t, fired.filter (fun x => x.observed_time = t) =
        (evs.filter (fun x => x.1 = t)).map
          (fun x => { fun_ptr := x.2.1, fun_arg := x.2.2, observed_time := x.1 }) := by
  obtain ⟨q1, hq1, -, hsort⟩ :=
    add_events_ok evs (EventQueue.create : EventQueue T F A) hevs
  have hpend : pending_events q1.event_queue = stable_sort_by_time_stamp evs := by
    have := pending_events_add_events evs [] (EventQueue.create : EventQueue T F A) q1
      List.Pairwise.nil rfl hq1
    simpa using this
  have hlen : q1.event_queue.length ≤ fuel := by
    have := add_events_length_le evs (EventQueue.create : EventQueue T F A) q1 hq1
    simp only [EventQueue.create, List.length_nil, Nat.zero_add] at this
    omega
  have hq : ∀ x ∈ pending_events q1.event_queue, ∀ w0 q0, (h x.2.1 x.2.2 w0 q0).2 = [] := by
    intro x hx
    rw [hpend] at hx
    exact hquiet x ((stable_sort_by_time_stamp_perm evs).mem_iff.mp hx)
  obtain ⟨w1, c1, hrun⟩ :=
    run_until_empty_quiet h q1.event_queue fuel w q1.current_time hlen hq
  rw [hpend] at hrun
  refine ⟨q1, w1, _, _, hq1, hrun, rfl, rfl, ?_, ?_, ?_⟩
  · exact (stable_sort_by_time_stamp_perm evs).map _
  · rw [List.pairwise_map]
    exact stable_sort_by_time_stamp_sorted evs
  · intro t
    rw [← stable_sort_by_time_stamp_filter t evs, List.filter_map]
    rfl

/-- C10 at a concrete input: the events (20, 2), (10, 1), (30, 4), (10, 3),
(20, 5) are enqueued on a fresh queue and fired by the driving loop. -/
theorem no_event_lost_witness :
    (∃ q1 w1 q2 fired,
      (EventQueue.create : EventQueue Nat Nat Nat).add_events
        [(20, 2, 0), (10, 1, 0), (30, 4, 0), (10, 3, 0), (20, 5, 0)] = .ok q1 ∧
      q1.run_until_empty quiet_handler 5 () = .ok (some (w1, q2, fired)) ∧
      q2.empty = true ∧
      fired = (stable_sort_by_time_stamp
        [(20, 2, 0), (10, 1, 0), (30, 4, 0), (10, 3, 0), (20, 5, 0)]).map
        (fun x => { fun_ptr := x.2.1, fun_arg := x.2.2, observed_time := x.1 }) ∧
      fired.Perm
        ([(20, 2, 0), (10, 1, 0), (30, 4, 0), (10, 3, 0), (20, 5, 0)].map
          (fun x => { fun_ptr := x.2.1, fun_arg := x.2.2, observed_time := x.1 })) ∧
      fired.Pairwise (fun x y => x.observed_time ≤ y.observed_time) ∧
      ∀ t, fired.filter (fun x => x.observed_time = t) =
        ([(20, 2, 0), (10, 1, 0), (30, 4, 0), (10, 3, 0), (20, 5, 0)].filter
          (fun x => x.1 = t)).map
          (fun x => { fun_ptr := x.2.1, fun_arg := x.2.2, observed_time := x.1 })) ∧
    (⟨0, [⟨10, [⟨1, 0⟩, ⟨3, 0⟩]⟩, ⟨20, [⟨2, 0⟩, ⟨5, 0⟩]⟩, ⟨30, [⟨4, 0⟩]⟩]⟩ :
        EventQueue Nat Nat Nat).run_until_empty quiet_handler 5 () =
      .ok (some ((), ⟨30, []⟩,
        [⟨1, 0, 10⟩, ⟨3, 0, 10⟩, ⟨2, 0, 20⟩, ⟨5, 0, 20⟩, ⟨4, 0, 30⟩])) :=
  ⟨no_event_lost quiet_handler
    [(20, 2, 0), (10, 1, 0), (30, 4, 0), (10, 3, 0), (20, 5, 0)] () 5
    (fun _ _ _ _ => rfl) (by decide) (by decide), rfl⟩

/-- C11: drain and reuse.  On a queue that holds exactly one bucket, whose
callbacks make no add_event call, proceed returns, the current time is the
time stamp of that bucket, and empty() is true.  On every queue for which
empty() is true, add_event with a time stamp strictly greater than
get_current_time() returns; afterwards empty() is false, the bucket list is
exactly one bucket with that time stamp, holding the new callback, and the
current time is as before. -/
theorem drain_and_reuse (h : Handler W T F A) (w : W) (q qd : EventQueue T F A)
    (B : EventQueueEntry T F A) (time_stamp : T) (fun_ptr : F) (fun_arg : A)
    (hq : q.event_queue = [B])
    (hquiet : ∀ e ∈ B.events, ∀ w0 q0, (h e.fun_ptr e.fun_arg w0 q0).2 = [])
    (hd : qd.empty = true) (hts : qd.get_current_time < time_stamp) :
    (∃ w1 q1 fired, q.proceed h w = .ok (w1, q1, fired) ∧ q1.empty = true ∧
      q1.get_current_time = B.time_stamp) ∧
    (∃ q2, qd.add_event time_stamp fun_ptr fun_arg = .ok q2 ∧ q2.empty = false ∧
      q2.event_queue =
        [{ time_stamp := time_stamp, events := [{ fun_ptr := fun_ptr, fun_arg := fun_arg }] }] ∧
      q2.event_queue.length = 1 ∧
      q2.get_current_time = qd.get_current_time) := by
  constructor
  · obtain ⟨w1, h1⟩ := proceed_quiet h w q B [] hq hquiet
    exact ⟨w1, _, _, h1, rfl, rfl⟩
  · have hnil : qd.event_queue = [] := by
      cases hl : qd.event_queue with
      | nil => rfl
      | cons x l => simp [EventQueue.empty, hl] at hd
    have hc : EventQueueEntry.compare_time_stamp qd.current_time time_stamp < 0 :=
      (compare_time_stamp_neg_iff _ _).mpr hts
    refine ⟨_, add_event_ok qd _ _ _ hc, ?_, ?_, ?_, rfl⟩
    · simp [EventQueue.empty, hnil, add_event_scan_nil]
    · simp [hnil, add_event_scan_nil]
    · simp [hnil, add_event_scan_nil]

/-- C11 at a concrete input: the bucket at 10 is fired, and a callback at 11
is enqueued on the drained queue whose current time is 10. -/
theorem drain_and_reuse_witness :
    (∃ w1 q1 fired,
      (⟨0, [⟨10, [⟨1, 0⟩]⟩]⟩ : EventQueue Nat Nat Nat).proceed quiet_handler () =
        .ok (w1, q1, fired) ∧ q1.empty = true ∧ q1.get_current_time = 10) ∧
    (∃ q2, (⟨10, []⟩ : EventQueue Nat Nat Nat).add_event 11 2 0 = .ok q2 ∧ q2.empty = false ∧
      q2.event_queue = [⟨11, [⟨2, 0⟩]⟩] ∧
      q2.event_queue.length = 1 ∧
      q2.get_current_time = (⟨10, []⟩ : EventQueue Nat Nat Nat).get_current_time) :=
  drain_and_reuse quiet_handler () (⟨0, [⟨10, [⟨1, 0⟩]⟩]⟩ : EventQueue Nat Nat Nat)
    (⟨10, []⟩ : EventQueue Nat Nat Nat) ⟨10, [⟨1, 0⟩]⟩ 11 2 0 rfl (fun _ _ _ _ => rfl) rfl
    (by decide)

/-- C12: the scenario on a freshly constructed queue (empty, time 0), with
callbacks A, B and C that make no add_event call.  After add_event(10, A),
add_event(20, B) and add_event(10, C) the bucket list is the bucket at 10 with
callbacks A, C followed by the bucket at 20 with callback B.  The first
proceed sets the time to 10, fires A and then C, both seeing time 10, and
leaves only the bucket at 20; the second proceed sets the time to 20, fires B
and leaves the queue empty. -/
theorem scenario_10_20_10 (h : Handler W Nat F A) (w : W) (fA fB fC : F) (aA aB aC : A)
    (hquiet : ∀ f a, (f, a) ∈ [(fA, aA), (fB, aB), (fC, aC)] →
      ∀ w0 q0, (h f a w0 q0).2 = []) :
    (EventQueue.create : EventQueue Nat F A).get_current_time = 0 ∧
    (EventQueue.create : EventQueue Nat F A).empty = true ∧
    (EventQueue.create : EventQueue Nat F A).add_event 10 fA aA =
      .ok ⟨0, [⟨10, [⟨fA, aA⟩]⟩]⟩ ∧
    (⟨0, [⟨10, [⟨fA, aA⟩]⟩]⟩ : EventQueue Nat F A).add_event 20 fB aB =
      .ok ⟨0, [⟨10, [⟨fA, aA⟩]⟩, ⟨20, [⟨fB, aB⟩]⟩]⟩ ∧
    (⟨0, [⟨10, [⟨fA, aA⟩]⟩, ⟨20, [⟨fB, aB⟩]⟩]⟩ : EventQueue Nat F A).add_event 10 fC aC =
      .ok ⟨0, [⟨10, [⟨fA, aA⟩, ⟨fC, aC⟩]⟩, ⟨20, [⟨fB, aB⟩]⟩]⟩ ∧
    ∃ w1 w2,
      (⟨0, [⟨10, [⟨fA, aA⟩, ⟨fC, aC⟩]⟩, ⟨20, [⟨fB, aB⟩]⟩]⟩ : EventQueue Nat F A).proceed h w =
        .ok (w1, ⟨10, [⟨20, [⟨fB, aB⟩]⟩]⟩, [⟨fA, aA, 10⟩, ⟨fC, aC, 10⟩]) ∧
      (⟨10, [⟨20, [⟨fB, aB⟩]⟩]⟩ : EventQueue Nat F A).proceed h w1 =
        .ok (w2, ⟨20, []⟩, [⟨fB, aB, 20⟩]) ∧
      (⟨20, []⟩ : EventQueue Nat F A).empty = true := by
  refine ⟨rfl, rfl, rfl, rfl, rfl, ?_⟩
  obtain ⟨w1, h1⟩ := proceed_quiet h w
    (⟨0, [⟨10, [⟨fA, aA⟩, ⟨fC, aC⟩]⟩, ⟨20, [⟨fB, aB⟩]⟩]⟩ : EventQueue Nat F A)
    ⟨10, [⟨fA, aA⟩, ⟨fC, aC⟩]⟩ [⟨20, [⟨fB, aB⟩]⟩] rfl
    (by
      intro e he
      simp only [List.mem_cons, List.mem_singleton, List.not_mem_nil, or_false] at he
      rcases he with e1 | e1 <;> rw [e1] <;> exact hquiet _ _ (by simp))
  obtain ⟨w2, h2⟩ := proceed_quiet h w1
    (⟨10, [⟨20, [⟨fB, aB⟩]⟩]⟩ : EventQueue Nat F A) ⟨20, [⟨fB, aB⟩]⟩ [] rfl
    (by
      intro e he
      simp only [List.mem_singleton] at he
      rw [he]
      exact hquiet _ _ (by simp))
  exact ⟨w1, w2, h1, h2, rfl⟩

/-- C12 at a concrete input: A, B, C are the callbacks 1, 2, 3. -/
theorem scenario_10_20_10_witness :
    ((EventQueue.create : EventQueue Nat Nat Nat).get_current_time = 0 ∧
    (EventQueue.create : EventQueue Nat Nat Nat).empty = true ∧
    (EventQueue.create : EventQueue Nat Nat Nat).add_event 10 1 0 =
      .ok ⟨0, [⟨10, [⟨1, 0⟩]⟩]⟩ ∧
    (⟨0, [⟨10, [⟨1, 0⟩]⟩]⟩ : EventQueue Nat Nat Nat).add_event 20 2 0 =
      .ok ⟨0, [⟨10, [⟨1, 0⟩]⟩, ⟨20, [⟨2, 0⟩]⟩]⟩ ∧
    (⟨0, [⟨10, [⟨1, 0⟩]⟩, ⟨20, [⟨2, 0⟩]⟩]⟩ : EventQueue Nat Nat Nat).add_event 10 3 0 =
      .ok ⟨0, [⟨10, [⟨1, 0⟩, ⟨3, 0⟩]⟩, ⟨20, [⟨2, 0⟩]⟩]⟩ ∧
    ∃ w1 w2,
      (⟨0, [⟨10, [⟨1, 0⟩, ⟨3, 0⟩]⟩, ⟨20, [⟨2, 0⟩]⟩]⟩ : EventQueue Nat Nat Nat).proceed
        quiet_handler () = .ok (w1, ⟨10, [⟨20, [⟨2, 0⟩]⟩]⟩, [⟨1, 0, 10⟩, ⟨3, 0, 10⟩]) ∧
      (⟨10, [⟨20, [⟨2, 0⟩]⟩]⟩ : EventQueue Nat Nat Nat).proceed quiet_handler w1 =
        .ok (w2, ⟨20, []⟩, [⟨2, 0, 20⟩]) ∧
      (⟨20, []⟩ : EventQueue Nat Nat Nat).empty = true) ∧
    (EventQueue.create : EventQueue Nat Nat Nat).run_calls quiet_handler
        [.add_event 10 1 0, .add_event 20 2 0, .add_event 10 3 0, .proceed, .proceed] () =
      .ok ((), ⟨20, []⟩, [[], [], [], [⟨1, 0, 10⟩, ⟨3, 0, 10⟩], [⟨2, 0, 20⟩]]) :=
  ⟨scenario_10_20_10 quiet_handler () 1 2 3 0 0 0 (fun _ _ _ _ _ => rfl), rfl⟩

/-- C13, as the code behaves: a re-entrant enqueue is merged in order.  In the
scenario, proceed fires the front bucket at 10 while a bucket at 12 is
pending, the add_event calls of the callbacks of the bucket at 10 have time
stamps later than 10, and one of them is add_event(15, f, a): proceed returns
with the current time 10 and a strictly ascending bucket list in which the
bucket at 12, with its callbacks, stands before a bucket at 15 that holds
(f, a); the buckets between the two have time stamps between 12 and 15, and
every bucket behind the bucket at 15 is later than 15.  The bucket at 15
stands immediately behind the bucket at 12 when no pending bucket and no
add_event call of the callbacks has a time stamp between 12 and 15.  In
general, on a strictly ascending bucket list B followed by R, when every
add_event call made by the callbacks of B has a time stamp later than that of
B, proceed returns; the bucket list left is R after the scans of those calls,
it is strictly ascending, it continues R, and every call has its callback in a
bucket with its time stamp. -/
theorem reentrant_add_event_is_merged (h : Handler W T F A) (w : W) (q : EventQueue T F A)
    (B : EventQueueEntry T F A) (R : List (EventQueueEntry T F A))
    (hN : Handler W Nat F A) (wN : W) (qN : EventQueue Nat F A) (es10 : List (Event F A))
    (RN : List (EventQueueEntry Nat F A)) (b12 : EventQueueEntry Nat F A) (f : F) (a : A)
    (hq : q.event_queue = B :: R) (hs : strictly_ascending q.event_queue)
    (hvalid : ∀ r ∈ EventQueueEntry.requests_made h B.events w
        { current_time := B.time_stamp, event_queue := B :: R },
      EventQueueEntry.compare_time_stamp B.time_stamp r.1 < 0)
    (hqN : qN.event_queue = ⟨10, es10⟩ :: RN) (hsN : strictly_ascending qN.event_queue)
    (hb12 : b12 ∈ RN) (ht12 : b12.time_stamp = 12)
    (hvalidN : ∀ r ∈ EventQueueEntry.requests_made hN es10 wN
        { current_time := 10, event_queue := ⟨10, es10⟩ :: RN },
      EventQueueEntry.compare_time_stamp 10 r.1 < 0)
    (hreq : (15, f, a) ∈ EventQueueEntry.requests_made hN es10 wN
        { current_time := 10, event_queue := ⟨10, es10⟩ :: RN }) :
    (∃ w1 q1 fired, qN.proceed hN wN = .ok (w1, q1, fired) ∧
      q1.get_current_time = 10 ∧
      strictly_ascending q1.event_queue ∧
      ∃ pre c12 mid c15 post, q1.event_queue = pre ++ c12 :: (mid ++ c15 :: post) ∧
        c12.time_stamp = 12 ∧ (∃ more, c12.events = b12.events ++ more) ∧
        c15.time_stamp = 15 ∧ ({ fun_ptr := f, fun_arg := a } : Event F A) ∈ c15.events ∧
        (∀ x ∈ pre, x.time_stamp < 12) ∧
        (∀ x ∈ mid, 12 < x.time_stamp ∧ x.time_stamp < 15) ∧
        (∀ x ∈ post, 15 < x.time_stamp) ∧
        ((∀ x ∈ RN, ¬ (12 < x.time_stamp ∧ x.time_stamp < 15)) →
          (∀ r ∈ EventQueueEntry.requests_made hN es10 wN
              { current_time := 10, event_queue := ⟨10, es10⟩ :: RN },
            ¬ (12 < r.1 ∧ r.1 < 15)) →
          mid = [])) ∧
    (∃ w1 q1 fired, q.proceed h w = .ok (w1, q1, fired) ∧
      q1.event_queue = EventQueue.add_event_scans
        (EventQueueEntry.requests_made h B.events w
          { current_time := B.time_stamp, event_queue := B :: R }) R ∧
      strictly_ascending q1.event_queue ∧
      continues R q1.event_queue ∧
      ∀ r ∈ EventQueueEntry.requests_made h B.events w
          { current_time := B.time_stamp, event_queue := B :: R },
        bucket_with q1.event_queue r.1
          (fun es => ({ fun_ptr := r.2.1, fun_arg := r.2.2 } : Event F A) ∈ es)) := by
  constructor
  · have hv : ∀ r ∈ EventQueueEntry.requests_made hN es10 wN
        { current_time := (⟨10, es10⟩ : EventQueueEntry Nat F A).time_stamp,
          event_queue := ⟨10, es10⟩ :: RN },
        (⟨10, es10⟩ : EventQueueEntry Nat F A).time_stamp < r.1 :=
      fun r hr => (compare_time_stamp_neg_iff _ _).mp (hvalidN r hr)
    obtain ⟨w1, q1, fired, hp⟩ := proceed_ok_of_valid hN wN qN ⟨10, es10⟩ RN hqN hv
    obtain ⟨-, -, hq1⟩ := proceed_ok_exact hqN hp
    simp only at hq1
    have hRN : strictly_ascending RN := (List.pairwise_cons.mp (hqN ▸ hsN)).2
    have hsorted : strictly_ascending q1.event_queue := by
      rw [hq1]; exact add_event_scans_strictly_ascending _ RN hRN
    obtain ⟨c12, hc12, hct12, more, hmore⟩ :
        ∃ c ∈ q1.event_queue, c.time_stamp = b12.time_stamp ∧
          ∃ more, c.events = b12.events ++ more := by
      rw [hq1]; exact add_event_scans_continues _ RN b12 hb12
    obtain ⟨c15, hc15, hct15, hmem15⟩ :
        bucket_with q1.event_queue 15
          (fun es => ({ fun_ptr := f, fun_arg := a } : Event F A) ∈ es) := by
      rw [hq1]; exact add_event_scans_bucket_with _ RN (15, f, a) hreq
    obtain ⟨pre, mid, post, hl⟩ := strictly_ascending_order hsorted hc12 hc15
      (by rw [hct12, ht12, hct15]; decide)
    obtain ⟨hpre, hmid, hpost⟩ := strictly_ascending_between (hl ▸ hsorted)
    rw [hct12, ht12] at hpre hmid
    rw [hct15] at hmid hpost
    refine ⟨w1, q1, fired, hp, by rw [hq1]; rfl, hsorted, pre, c12, mid, c15, post, hl,
      hct12.trans ht12, ⟨more, hmore⟩, hct15, hmem15, hpre, hmid, hpost, ?_⟩
    intro hnoR hnoreq
    cases hm : mid with
    | nil => rfl
    | cons x mid1 =>
      exfalso
      have hxmid : x ∈ mid := by rw [hm]; exact List.mem_cons_self _ _
      have hxq : x ∈ EventQueue.add_event_scans
          (EventQueueEntry.requests_made hN es10 wN
            { current_time := 10, event_queue := ⟨10, es10⟩ :: RN }) RN := by
        have : x ∈ q1.event_queue := by
          rw [hl]
          exact List.mem_append_right _
            (List.mem_cons_of_mem _ (List.mem_append_left _ hxmid))
        rw [hq1] at this
        exact this
      rcases add_event_scans_time_stamp_mem _ RN x hxq with ⟨r, hr, ht⟩ | ⟨x0, hx0, ht⟩
      · exact hnoreq r hr (ht ▸ hmid x hxmid)
      · exact hnoR x0 hx0 (ht ▸ hmid x hxmid)
  · have hv : ∀ r ∈ EventQueueEntry.requests_made h B.events w
        { current_time := B.time_stamp, event_queue := B :: R }, B.time_stamp < r.1 :=
      fun r hr => (compare_time_stamp_neg_iff _ _).mp (hvalid r hr)
    obtain ⟨w1, q1, fired, hp⟩ := proceed_ok_of_valid h w q B R hq hv
    obtain ⟨-, -, hq1⟩ := proceed_ok_exact hq hp
    have hR : strictly_ascending R := (List.pairwise_cons.mp (hq ▸ hs)).2
    refine ⟨w1, q1, fired, hp, by rw [hq1], ?_, ?_, ?_⟩
    · rw [hq1]; exact add_event_scans_strictly_ascending _ R hR
    · rw [hq1]; exact add_event_scans_continues _ R
    · intro r hr
      rw [hq1]
      exact add_event_scans_bucket_with _ R r hr

/-- C13 at a concrete input: callback 7, fired at 10, enqueues callback 8 at 15
while the buckets at 12, 13 and 20 are pending; and the same with only the
buckets at 12 and 20 pending, where the bucket at 15 comes to stand
immediately behind the bucket at 12. -/
theorem reentrant_add_event_is_merged_witness :
    ((∃ w1 q1 fired,
      (⟨0, [⟨10, [⟨7, 0⟩]⟩, ⟨12, [⟨1, 0⟩]⟩, ⟨13, [⟨4, 0⟩]⟩, ⟨20, [⟨2, 0⟩]⟩]⟩ :
          EventQueue Nat Nat Nat).proceed rescheduling_handler () = .ok (w1, q1, fired) ∧
      q1.get_current_time = 10 ∧
      strictly_ascending q1.event_queue ∧
      ∃ pre c12 mid c15 post, q1.event_queue = pre ++ c12 :: (mid ++ c15 :: post) ∧
        c12.time_stamp = 12 ∧
        (∃ more, c12.events = (⟨12, [⟨1, 0⟩]⟩ : EventQueueEntry Nat Nat Nat).events ++ more) ∧
        c15.time_stamp = 15 ∧ (⟨8, 0⟩ : Event Nat Nat) ∈ c15.events ∧
        (∀ x ∈ pre, x.time_stamp < 12) ∧
        (∀ x ∈ mid, 12 < x.time_stamp ∧ x.time_stamp < 15) ∧
        (∀ x ∈ post, 15 < x.time_stamp) ∧
        ((∀ x ∈ [(⟨12, [⟨1, 0⟩]⟩ : EventQueueEntry Nat Nat Nat), ⟨13, [⟨4, 0⟩]⟩,
              ⟨20, [⟨2, 0⟩]⟩], ¬ (12 < x.time_stamp ∧ x.time_stamp < 15)) →
          (∀ r ∈ EventQueueEntry.requests_made rescheduling_handler [⟨7, 0⟩] ()
              { current_time := 10,
                event_queue := ⟨10, [⟨7, 0⟩]⟩ ::
                  [⟨12, [⟨1, 0⟩]⟩, ⟨13, [⟨4, 0⟩]⟩, ⟨20, [⟨2, 0⟩]⟩] },
            ¬ (12 < r.1 ∧ r.1 < 15)) →
          mid = [])) ∧
    (∃ w1 q1 fired,
      (⟨0, [⟨10, [⟨7, 0⟩]⟩, ⟨12, [⟨1, 0⟩]⟩, ⟨20, [⟨2, 0⟩]⟩]⟩ :
          EventQueue Nat Nat Nat).proceed rescheduling_handler () = .ok (w1, q1, fired) ∧
      q1.event_queue = EventQueue.add_event_scans
        (EventQueueEntry.requests_made rescheduling_handler [⟨7, 0⟩] ()
          { current_time := 10,
            event_queue := [⟨10, [⟨7, 0⟩]⟩, ⟨12, [⟨1, 0⟩]⟩, ⟨20, [⟨2, 0⟩]⟩] })
        [⟨12, [⟨1, 0⟩]⟩, ⟨20, [⟨2, 0⟩]⟩] ∧
      strictly_ascending q1.event_queue ∧
      continues [⟨12, [⟨1, 0⟩]⟩, ⟨20, [⟨2, 0⟩]⟩] q1.event_queue ∧
      ∀ r ∈ EventQueueEntry.requests_made rescheduling_handler [⟨7, 0⟩] ()
          { current_time := 10,
            event_queue := [⟨10, [⟨7, 0⟩]⟩, ⟨12, [⟨1, 0⟩]⟩, ⟨20, [⟨2, 0⟩]⟩] },
        bucket_with q1.event_queue r.1
          (fun es => ({ fun_ptr := r.2.1, fun_arg := r.2.2 } : Event Nat Nat) ∈ es))) ∧
    (⟨0, [⟨10, [⟨7, 0⟩]⟩, ⟨12, [⟨1, 0⟩]⟩, ⟨13, [⟨4, 0⟩]⟩, ⟨20, [⟨2, 0⟩]⟩]⟩ :
        EventQueue Nat Nat Nat).proceed rescheduling_handler () =
      .ok ((), ⟨10, [⟨12, [⟨1, 0⟩]⟩, ⟨13, [⟨4, 0⟩]⟩, ⟨15, [⟨8, 0⟩]⟩, ⟨20, [⟨2, 0⟩]⟩]⟩,
        [⟨7, 0, 10⟩]) ∧
    (⟨0, [⟨10, [⟨7, 0⟩]⟩, ⟨12, [⟨1, 0⟩]⟩, ⟨20, [⟨2, 0⟩]⟩]⟩ :
        EventQueue Nat Nat Nat).proceed rescheduling_handler () =
      .ok ((), ⟨10, [⟨12, [⟨1, 0⟩]⟩, ⟨15, [⟨8, 0⟩]⟩, ⟨20, [⟨2, 0⟩]⟩]⟩, [⟨7, 0, 10⟩]) :=
  ⟨reentrant_add_event_is_merged rescheduling_handler ()
    (⟨0, [⟨10, [⟨7, 0⟩]⟩, ⟨12, [⟨1, 0⟩]⟩, ⟨20, [⟨2, 0⟩]⟩]⟩ : EventQueue Nat Nat Nat)
    ⟨10, [⟨7, 0⟩]⟩ [⟨12, [⟨1, 0⟩]⟩, ⟨20, [⟨2, 0⟩]⟩]
    rescheduling_handler ()
    (⟨0, [⟨10, [⟨7, 0⟩]⟩, ⟨12, [⟨1, 0⟩]⟩, ⟨13, [⟨4, 0⟩]⟩, ⟨20, [⟨2, 0⟩]⟩]⟩ :
      EventQueue Nat Nat Nat)
    [⟨7, 0⟩] [⟨12, [⟨1, 0⟩]⟩, ⟨13, [⟨4, 0⟩]⟩, ⟨20, [⟨2, 0⟩]⟩] ⟨12, [⟨1, 0⟩]⟩ 8 0
    rfl (by decide) (by decide) rfl (by decide) (by decide) rfl (by decide) (by decide),
    rfl, rfl⟩

/-- C13, the claim as stated fails: on the queue reached from a fresh one by
add_event at 10 (callback 7), 12, 13 and 20, proceed fires callback 7 at time
10, which enqueues callback 8 at 15 while the bucket at 12 is pending.  The
bucket list left is 12, 13, 15, 20: the bucket at 15 does not stand
immediately behind the bucket at 12. -/
theorem reentrant_bucket_not_immediately_behind :
    Reachable rescheduling_handler
      (⟨0, [⟨10, [⟨7, 0⟩]⟩, ⟨12, [⟨1, 0⟩]⟩, ⟨13, [⟨4, 0⟩]⟩, ⟨20, [⟨2, 0⟩]⟩]⟩ :
        EventQueue Nat Nat Nat) ∧
    (⟨0, [⟨10, [⟨7, 0⟩]⟩, ⟨12, [⟨1, 0⟩]⟩, ⟨13, [⟨4, 0⟩]⟩, ⟨20, [⟨2, 0⟩]⟩]⟩ :
        EventQueue Nat Nat Nat).proceed rescheduling_handler () =
      .ok ((), ⟨10, [⟨12, [⟨1, 0⟩]⟩, ⟨13, [⟨4, 0⟩]⟩, ⟨15, [⟨8, 0⟩]⟩, ⟨20, [⟨2, 0⟩]⟩]⟩,
        [⟨7, 0, 10⟩]) ∧
    ¬ ∃ (pre post : List (EventQueueEntry Nat Nat Nat)) (c12 c15 : EventQueueEntry Nat Nat Nat),
      [(⟨12, [⟨1, 0⟩]⟩ : EventQueueEntry Nat Nat Nat), ⟨13, [⟨4, 0⟩]⟩, ⟨15, [⟨8, 0⟩]⟩,
          ⟨20, [⟨2, 0⟩]⟩] = pre ++ c12 :: c15 :: post ∧
        c12.time_stamp = 12 ∧ c15.time_stamp = 15 := by
  refine ⟨?_, rfl, ?_⟩
  · exact Reachable.add_event ⟨0, [⟨10, [⟨7, 0⟩]⟩, ⟨12, [⟨1, 0⟩]⟩, ⟨13, [⟨4, 0⟩]⟩]⟩ _ 20 2 0
      (Reachable.add_event ⟨0, [⟨10, [⟨7, 0⟩]⟩, ⟨12, [⟨1, 0⟩]⟩]⟩ _ 13 4 0
        (Reachable.add_event ⟨0, [⟨10, [⟨7, 0⟩]⟩]⟩ _ 12 1 0
          (Reachable.add_event EventQueue.create _ 10 7 0 Reachable.create rfl) rfl) rfl) rfl
  · rintro ⟨pre, post, c12, c15, hl, h12, h15⟩
    rcases pre with _ | ⟨x1, _ | ⟨x2, _ | ⟨x3, _ | ⟨x4, pre⟩⟩⟩⟩
    · simp only [List.nil_append, List.cons.injEq] at hl
      rw [← hl.2.1] at h15
      exact absurd h15 (by decide)
    · simp only [List.cons_append, List.nil_append, List.cons.injEq] at hl
      rw [← hl.2.1] at h12
      exact absurd h12 (by decide)
    · simp only [List.cons_append, List.nil_append, List.cons.injEq] at hl
      rw [← hl.2.2.1] at h12
      exact absurd h12 (by decide)
    · simp only [List.cons_append, List.nil_append, List.cons.injEq] at hl
      exact absurd hl.2.2.2.2 (by simp)
    · simp only [List.cons_append, List.cons.injEq] at hl
      exact absurd hl.2.2.2.2 (by simp)

/-- C14: the bucket being fired is untouched by re-entrant enqueues.  While the
bucket B is at the front and the current time is its time stamp, as proceed
sets it before the callbacks run, a returning add_event call leaves B as it
is, at the front: the callback goes into the list behind B.  So in a returning
call of proceed on a bucket list B followed by R, the callbacks of B return
with B still at the front, pop_front removes exactly B, the invocations made
are those of the callbacks of B, and every add_event call made by a callback
has a time stamp later than that of B and its callback in a bucket, with its
time stamp, of the list that proceed leaves. -/
theorem firing_bucket_untouched (h : Handler W T F A) (w w1 : W) (q q1 : EventQueue T F A)
    (B : EventQueueEntry T F A) (R : List (EventQueueEntry T F A))
    (fired : List (Invocation T F A))
    (hq : q.event_queue = B :: R) (hp : q.proceed h w = .ok (w1, q1, fired)) :
    (∀ (R1 : List (EventQueueEntry T F A)) (ts : T) (f : F) (a : A) (q2 : EventQueue T F A),
      ({ current_time := B.get_time_stamp, event_queue := B :: R1 } :
          EventQueue T F A).add_event ts f a = .ok q2 →
      q2.event_queue = B :: EventQueue.add_event_scan ts f a R1 ∧
        q2.current_time = B.time_stamp) ∧
    (∃ qr, EventQueueEntry.run_events h B.events w
          { q with current_time := B.get_time_stamp } = .ok (w1, qr, fired) ∧
      qr.event_queue = B :: q1.event_queue ∧
      q1 = qr.pop_front) ∧
    fired = B.events.map
      (fun e => { fun_ptr := e.fun_ptr, fun_arg := e.fun_arg,
                  observed_time := B.time_stamp }) ∧
    (∀ r ∈ EventQueueEntry.requests_made h B.events w
        { q with current_time := B.get_time_stamp },
      B.time_stamp < r.1 ∧
      bucket_with q1.event_queue r.1
        (fun es => ({ fun_ptr := r.2.1, fun_arg := r.2.2 } : Event F A) ∈ es)) := by
  obtain ⟨hv, hrun, hq1⟩ := proceed_ok_exact hq hp
  obtain ⟨-, hf, -⟩ := proceed_ok_inv hq hp
  have hstate : ({ q with current_time := B.get_time_stamp } : EventQueue T F A) =
      { current_time := B.time_stamp, event_queue := B :: R } := by
    rw [hq]; rfl
  refine ⟨?_, ?_, hf, ?_⟩
  · intro R1 ts f a q2 hadd
    obtain ⟨hlt, rfl⟩ := add_event_ok_inv hadd
    exact ⟨add_event_scan_cons_lt ts f a B R1 hlt, rfl⟩
  · rw [hstate]
    refine ⟨_, hrun, ?_, ?_⟩
    · rw [hq1]
    · rw [hq1]; rfl
  · rw [hstate]
    intro r hr
    refine ⟨hv r hr, ?_⟩
    rw [hq1]
    exact add_event_scans_bucket_with _ R r hr

/-- C14 at a concrete input: callback 7, fired at 10, enqueues callback 8 at 15;
the bucket at 10 is the one removed and the bucket at 15 is pending
afterwards. -/
theorem firing_bucket_untouched_witness :
    ((∀ (R1 : List (EventQueueEntry Nat Nat Nat)) (ts f a : Nat) (q2 : EventQueue Nat Nat Nat),
      ({ current_time := 10, event_queue := ⟨10, [⟨7, 0⟩]⟩ :: R1 } :
          EventQueue Nat Nat Nat).add_event ts f a = .ok q2 →
      q2.event_queue = ⟨10, [⟨7, 0⟩]⟩ :: EventQueue.add_event_scan ts f a R1 ∧
        q2.current_time = 10) ∧
    (∃ qr, EventQueueEntry.run_events rescheduling_handler [⟨7, 0⟩] ()
          { current_time := 10, event_queue := [⟨10, [⟨7, 0⟩]⟩, ⟨20, [⟨2, 0⟩]⟩] } =
        .ok ((), qr, [⟨7, 0, 10⟩]) ∧
      qr.event_queue = ⟨10, [⟨7, 0⟩]⟩ :: [⟨15, [⟨8, 0⟩]⟩, ⟨20, [⟨2, 0⟩]⟩] ∧
      (⟨10, [⟨15, [⟨8, 0⟩]⟩, ⟨20, [⟨2, 0⟩]⟩]⟩ : EventQueue Nat Nat Nat) = qr.pop_front) ∧
    [(⟨7, 0, 10⟩ : Invocation Nat Nat Nat)] =
      [(⟨7, 0⟩ : Event Nat Nat)].map
        (fun e => { fun_ptr := e.fun_ptr, fun_arg := e.fun_arg, observed_time := 10 }) ∧
    (∀ r ∈ EventQueueEntry.requests_made rescheduling_handler [⟨7, 0⟩] ()
        { current_time := 10, event_queue := [⟨10, [⟨7, 0⟩]⟩, ⟨20, [⟨2, 0⟩]⟩] },
      10 < r.1 ∧
      bucket_with [(⟨15, [⟨8, 0⟩]⟩ : EventQueueEntry Nat Nat Nat), ⟨20, [⟨2, 0⟩]⟩] r.1
        (fun es => ({ fun_ptr := r.2.1, fun_arg := r.2.2 } : Event Nat Nat) ∈ es))) ∧
    EventQueueEntry.requests_made rescheduling_handler [⟨7, 0⟩] ()
        { current_time := 10, event_queue := [⟨10, [⟨7, 0⟩]⟩, ⟨20, [⟨2, 0⟩]⟩] } =
      [(15, 8, 0)] :=
  ⟨firing_bucket_untouched rescheduling_handler () ()
    (⟨0, [⟨10, [⟨7, 0⟩]⟩, ⟨20, [⟨2, 0⟩]⟩]⟩ : EventQueue Nat Nat Nat)
    ⟨10, [⟨15, [⟨8, 0⟩]⟩, ⟨20, [⟨2, 0⟩]⟩]⟩ ⟨10, [⟨7, 0⟩]⟩ [⟨20, [⟨2, 0⟩]⟩] [⟨7, 0, 10⟩]
    rfl rfl, rfl⟩

/-- C15: pending events are always in the future.  In every state reached from
a fresh queue by returning calls of add_event and proceed, every bucket has a
time stamp strictly greater than the current time and at least one
callback. -/
theorem pending_events_are_in_the_future [Zero T] (h : Handler W T F A) (q : EventQueue T F A)
    (hq : Reachable h q) :
    ∀ b ∈ q.event_queue, q.get_current_time < b.time_stamp ∧ b.events ≠ [] :=
  fun b hb => ⟨(reachable_well_formed hq).2 b hb, reachable_events_ne_nil hq b hb⟩

/-- C15 at a concrete input: the queue reached by add_event at 10 and at 20, a
first proceed, and add_event at 15; its current time is 10 and its buckets are
the one at 15 and the one at 20. -/
theorem pending_events_are_in_the_future_witness :
    (reached_queue.get_current_time <
        (⟨15, [⟨3, 0⟩]⟩ : EventQueueEntry Nat Nat Nat).time_stamp ∧
      (⟨15, [⟨3, 0⟩]⟩ : EventQueueEntry Nat Nat Nat).events ≠ []) ∧
    reached_queue.event_queue = [⟨15, [⟨3, 0⟩]⟩, ⟨20, [⟨2, 0⟩]⟩] :=
  ⟨pending_events_are_in_the_future quiet_handler reached_queue
    (Reachable.add_event ⟨10, [⟨20, [⟨2, 0⟩]⟩]⟩ _ 15 3 0
      (Reachable.proceed ⟨0, [⟨10, [⟨1, 0⟩]⟩, ⟨20, [⟨2, 0⟩]⟩]⟩ _ () () [⟨1, 0, 10⟩]
        (Reachable.add_event ⟨0, [⟨10, [⟨1, 0⟩]⟩]⟩ _ 20 2 0
          (Reachable.add_event EventQueue.create _ 10 1 0 Reachable.create rfl) rfl) rfl) rfl)
    ⟨15, [⟨3, 0⟩]⟩ (List.mem_cons_self _ _), rfl⟩

/-- C16: the frame of add_event.  On every queue, a call of add_event with a
time stamp later than the current time returns and leaves the current time as
it is.  The bucket list changes at one place only: a new bucket with the
single new callback is put between two parts of the list, or the new callback
is added at the end of one bucket; so every bucket that was there keeps its
callbacks, in their order (the new list continues the old one).  The pending
callbacks are the old ones, in their order, with the new one put in at one
place; their number grows by exactly one, and empty() is false afterwards. -/
theorem add_event_frame (q : EventQueue T F A) (time_stamp : T) (fun_ptr : F) (fun_arg : A)
    (ht : EventQueueEntry.compare_time_stamp q.current_time time_stamp < 0) :
    ∃ q1, q.add_event time_stamp fun_ptr fun_arg = .ok q1 ∧
      q1.get_current_time = q.get_current_time ∧
      (∃ pre post, q.event_queue = pre ++ post ∧
        (q1.event_queue =
            pre ++ { time_stamp := time_stamp,
                     events := [{ fun_ptr := fun_ptr, fun_arg := fun_arg }] } :: post ∨
          ∃ b post1, post = b :: post1 ∧ b.time_stamp = time_stamp ∧
            q1.event_queue =
              pre ++ { time_stamp := b.time_stamp,
                       events := b.events ++ [{ fun_ptr := fun_ptr, fun_arg := fun_arg }] } ::
                post1)) ∧
      continues q.event_queue q1.event_queue ∧
      (∃ s1 s2, pending_events q.event_queue = s1 ++ s2 ∧
        pending_events q1.event_queue = s1 ++ (time_stamp, fun_ptr, fun_arg) :: s2) ∧
      (pending_events q1.event_queue).length = (pending_events q.event_queue).length + 1 ∧
      q1.empty = false := by
  refine ⟨_, add_event_ok q _ _ _ ht, rfl,
    add_event_scan_shape time_stamp fun_ptr fun_arg q.event_queue,
    add_event_scan_continues time_stamp fun_ptr fun_arg q.event_queue,
    pending_events_add_event_scan_shape time_stamp fun_ptr fun_arg q.event_queue, ?_, ?_⟩
  · obtain ⟨s1, s2, h1, h2⟩ :=
      pending_events_add_event_scan_shape time_stamp fun_ptr fun_arg q.event_queue
    simp only [h1, h2, List.length_append, List.length_cons]
    omega
  · obtain ⟨pre, post, -, hcase⟩ := add_event_scan_shape time_stamp fun_ptr fun_arg q.event_queue
    rcases hcase with h1 | ⟨b, post1, -, -, h1⟩ <;>
      simp only [EventQueue.empty, h1] <;> cases pre <;> rfl

/-- C16 at a concrete input: a callback at 10 is added to the queue with the
buckets at 10 and 20. -/
theorem add_event_frame_witness :
    (∃ q1, (⟨0, [⟨10, [⟨1, 0⟩]⟩, ⟨20, [⟨2, 0⟩]⟩]⟩ : EventQueue Nat Nat Nat).add_event 10 3 0 =
        .ok q1 ∧
      q1.get_current_time =
        (⟨0, [⟨10, [⟨1, 0⟩]⟩, ⟨20, [⟨2, 0⟩]⟩]⟩ : EventQueue Nat Nat Nat).get_current_time ∧
      (∃ pre post, [(⟨10, [⟨1, 0⟩]⟩ : EventQueueEntry Nat Nat Nat), ⟨20, [⟨2, 0⟩]⟩] = pre ++ post ∧
        (q1.event_queue = pre ++ ⟨10, [⟨3, 0⟩]⟩ :: post ∨
          ∃ b post1, post = b :: post1 ∧ b.time_stamp = 10 ∧
            q1.event_queue = pre ++ ⟨b.time_stamp, b.events ++ [⟨3, 0⟩]⟩ :: post1)) ∧
      continues [⟨10, [⟨1, 0⟩]⟩, ⟨20, [⟨2, 0⟩]⟩] q1.event_queue ∧
      (∃ s1 s2, pending_events [(⟨10, [⟨1, 0⟩]⟩ : EventQueueEntry Nat Nat Nat), ⟨20, [⟨2, 0⟩]⟩] =
          s1 ++ s2 ∧
        pending_events q1.event_queue = s1 ++ (10, 3, 0) :: s2) ∧
      (pending_events q1.event_queue).length =
        (pending_events [(⟨10, [⟨1, 0⟩]⟩ : EventQueueEntry Nat Nat Nat),
          ⟨20, [⟨2, 0⟩]⟩]).length + 1 ∧
      q1.empty = false) ∧
    (⟨0, [⟨10, [⟨1, 0⟩]⟩, ⟨20, [⟨2, 0⟩]⟩]⟩ : EventQueue Nat Nat Nat).add_event 10 3 0 =
      .ok ⟨0, [⟨10, [⟨1, 0⟩, ⟨3, 0⟩]⟩, ⟨20, [⟨2, 0⟩]⟩]⟩ :=
  ⟨add_event_frame (⟨0, [⟨10, [⟨1, 0⟩]⟩, ⟨20, [⟨2, 0⟩]⟩]⟩ : EventQueue Nat Nat Nat) 10 3 0
    (by decide), rfl⟩

/-- C17: enqueues at distinct time stamps commute.  On every queue (strictly
ascending or not) and for two different time stamps t1 and t2 that are both later
than the current time, add_event(t1, f1, a1) followed by add_event(t2, f2, a2)
and the two calls in the opposite order all return, and the two final queues
are equal: the same current time and the same buckets with the same callbacks
in the same order. -/
theorem add_event_commutes (q : EventQueue T F A) (t1 t2 : T) (f1 f2 : F) (a1 a2 : A)
    (hne : t1 ≠ t2)
    (h1 : EventQueueEntry.compare_time_stamp q.current_time t1 < 0)
    (h2 : EventQueueEntry.compare_time_stamp q.current_time t2 < 0) :
    ∃ qa qb q12, q.add_event t1 f1 a1 = .ok qa ∧ qa.add_event t2 f2 a2 = .ok q12 ∧
      q.add_event t2 f2 a2 = .ok qb ∧ qb.add_event t1 f1 a1 = .ok q12 ∧
      q12.current_time = q.current_time ∧
      q12.event_queue = EventQueue.add_event_scan t2 f2 a2
        (EventQueue.add_event_scan t1 f1 a1 q.event_queue) := by
  refine ⟨_, _, _, add_event_ok q t1 f1 a1 h1, add_event_ok _ t2 f2 a2 h2,
    add_event_ok q t2 f2 a2 h2, ?_, rfl, rfl⟩
  have hb := add_event_ok
    ({ q with event_queue := EventQueue.add_event_scan t2 f2 a2 q.event_queue } :
      EventQueue T F A) t1 f1 a1 h1
  rw [hb]
  simp only [add_event_scan_comm t1 t2 f1 f2 a1 a2 hne q.event_queue]

/-- C17 at a concrete input: callbacks at 15 and at 10 are added, in both
orders, to the queue with the buckets at 10 and 20. -/
theorem add_event_commutes_witness :
    (∃ qa qb q12,
      (⟨0, [⟨10, [⟨1, 0⟩]⟩, ⟨20, [⟨2, 0⟩]⟩]⟩ : EventQueue Nat Nat Nat).add_event 15 3 0 = .ok qa ∧
      qa.add_event 10 4 0 = .ok q12 ∧
      (⟨0, [⟨10, [⟨1, 0⟩]⟩, ⟨20, [⟨2, 0⟩]⟩]⟩ : EventQueue Nat Nat Nat).add_event 10 4 0 = .ok qb ∧
      qb.add_event 15 3 0 = .ok q12 ∧
      q12.current_time =
        (⟨0, [⟨10, [⟨1, 0⟩]⟩, ⟨20, [⟨2, 0⟩]⟩]⟩ : EventQueue Nat Nat Nat).current_time ∧
      q12.event_queue = EventQueue.add_event_scan 10 4 0
        (EventQueue.add_event_scan 15 3 0 [⟨10, [⟨1, 0⟩]⟩, ⟨20, [⟨2, 0⟩]⟩])) ∧
    (⟨0, [⟨10, [⟨1, 0⟩]⟩, ⟨20, [⟨2, 0⟩]⟩]⟩ : EventQueue Nat Nat Nat).add_events
        [(15, 3, 0), (10, 4, 0)] =
      .ok ⟨0, [⟨10, [⟨1, 0⟩, ⟨4, 0⟩]⟩, ⟨15, [⟨3, 0⟩]⟩, ⟨20, [⟨2, 0⟩]⟩]⟩ ∧
    (⟨0, [⟨10, [⟨1, 0⟩]⟩, ⟨20, [⟨2, 0⟩]⟩]⟩ : EventQueue Nat Nat Nat).add_events
        [(10, 4, 0), (15, 3, 0)] =
      .ok ⟨0, [⟨10, [⟨1, 0⟩, ⟨4, 0⟩]⟩, ⟨15, [⟨3, 0⟩]⟩, ⟨20, [⟨2, 0⟩]⟩]⟩ :=
  ⟨add_event_commutes (⟨0, [⟨10, [⟨1, 0⟩]⟩, ⟨20, [⟨2, 0⟩]⟩]⟩ : EventQueue Nat Nat Nat)
    15 10 3 4 0 0 (by decide) (by decide) (by decide), rfl, rfl⟩

end Model

end AnalyticalBackend
